import Mathlib

/-!
Verification of the `visualzzer` repository against its specification.

The web layer's only non-trivial logic is `validateNumberInput` and
`formatNumbers` in `static/js/main.js`; both are embedded below as pure
functions over `List Char` / `String`.  The sorting step-generator engine
(the pygame visualizer) is not part of the checked-in sources, so it is
modelled from the specification; every such definition carries a
`Modelled from the spec:` doc comment.
-/

namespace Visualzzer

/-! ## Sort direction and the direction-aware comparator -/

/-- Sort direction: ascending or descending. -/
inductive Dir where
  | asc : Dir
  | desc : Dir
deriving DecidableEq

/-- Direction-aware "may stay in this order" relation: `a` may appear before
`b`.  For ascending this is `a ≤ b`, for descending `b ≤ a`. -/
def dle (d : Dir) (a b : ℕ) : Bool :=
  match d with
  | .asc => decide (a ≤ b)
  | .desc => decide (b ≤ a)

/-- Modelled from the spec: the comparator `shouldSwap(a,b)` used by every
generator returns `a > b` for ascending and `a < b` for descending. -/
def shouldSwap (d : Dir) (a b : ℕ) : Bool :=
  match d with
  | .asc => decide (b < a)
  | .desc => decide (a < b)

/-- A list is sorted for direction `d` when every earlier element may come
before every later one. -/
def dirSorted (d : Dir) (l : List ℕ) : Prop :=
  l.Pairwise (fun a b => dle d a b = true)

instance (d : Dir) (l : List ℕ) : Decidable (dirSorted d l) := by
  unfold dirSorted; infer_instance

/-! ## Steps -/

/-- The discriminated kinds of atomic algorithm actions. -/
inductive StepKind where
  | compare : StepKind
  | swap : StepKind
  | set : StepKind
  | pivot : StepKind
  | mergeWrite : StepKind
  | sift : StepKind
  | done : StepKind
deriving DecidableEq

/-- Modelled from the spec: a `Step` records one atomic action, the array
positions involved, the full array state after the step, and its position
in the sequence. -/
structure Step where
  kind : StepKind
  indices : List ℕ
  arraySnapshot : List ℕ
  stepIndex : ℕ
deriving DecidableEq

/-- Assign consecutive `stepIndex` values starting at `k`. -/
def numberFrom (k : ℕ) : List Step → List Step
  | [] => []
  | s :: t => { s with stepIndex := k } :: numberFrom (k + 1) t

/-- Applying a step replaces the working array by the step's snapshot
(snapshots are full post-states, never partial). -/
def applyStep (a : List ℕ) (s : Step) : List ℕ :=
  let _ := a
  s.arraySnapshot

/-- Apply every step in order starting from `a`. -/
def applySteps (a : List ℕ) (ss : List Step) : List ℕ :=
  ss.foldl applyStep a

/-- Build a step (the `stepIndex` is assigned later by `numberFrom`). -/
def mkStep (k : StepKind) (idx : List ℕ) (snap : List ℕ) : Step :=
  ⟨k, idx, snap, 0⟩

/-! ## InputValidator: embedding of `validateNumberInput` from
`static/js/main.js` -/

/-- Whitespace characters recognised by the JavaScript regexes. -/
def isWsChar (c : Char) : Bool :=
  c = ' ' || c = '\t' || c = '\n' || c = '\r' || c = '\x0b' || c = '\x0c'

/-- A delimiter is a comma or whitespace; `input.replace(/,/g, ' ')` followed
by `split(/\s+/)` and dropping empties splits on runs of these. -/
def isDelim (c : Char) : Bool :=
  c = ',' || isWsChar c

/-- Embedding of `input.trim()`. -/
def trimChars (cs : List Char) : List Char :=
  ((cs.dropWhile isWsChar).reverse.dropWhile isWsChar).reverse

/-- Split on delimiter runs, dropping empty tokens; `acc` holds the current
token reversed. -/
def splitToks : List Char → List Char → List (List Char)
  | [], acc => if acc.isEmpty then [] else [acc.reverse]
  | c :: rest, acc =>
    if isDelim c then
      if acc.isEmpty then splitToks rest [] else acc.reverse :: splitToks rest []
    else
      splitToks rest (c :: acc)

/-- The token list produced for an input string. -/
def tokensOf (s : String) : List (List Char) :=
  splitToks (trimChars s.toList) []

/-- ASCII decimal digit test. -/
def isDigitB (c : Char) : Bool :=
  decide ('0' ≤ c) && decide (c ≤ '9')

/-- ASCII hexadecimal digit test. -/
def isHexDigitB (c : Char) : Bool :=
  isDigitB c || (decide ('a' ≤ c) && decide (c ≤ 'f')) ||
    (decide ('A' ≤ c) && decide (c ≤ 'F'))

/-- Numeric value of a (hex) digit character. -/
def digitNat (c : Char) : ℕ :=
  if isDigitB c then c.toNat - 48
  else if decide ('a' ≤ c) && decide (c ≤ 'f') then c.toNat - 87
  else if decide ('A' ≤ c) && decide (c ≤ 'F') then c.toNat - 55
  else 0

/-- Accumulate digits in the given base. -/
def digitsToNat (base : ℕ) (ds : List Char) : ℕ :=
  ds.foldl (fun acc c => acc * base + digitNat c) 0

/-- Parse the longest digit run at the front of `cs`; `none` when there is no
digit. -/
def parseDigitRun (base : ℕ) (isD : Char → Bool) (cs : List Char) : Option ℕ :=
  let ds := cs.takeWhile isD
  if ds.isEmpty then none else some (digitsToNat base ds)

/-- Embedding of JavaScript `parseInt(str)` (radix unspecified): skip leading
whitespace, read an optional sign, detect a `0x`/`0X` prefix for hexadecimal,
otherwise read the longest decimal-digit prefix; `none` models `NaN`. -/
def parseIntJS (t0 : List Char) : Option Int :=
  let t1 := t0.dropWhile isWsChar
  let sgn : Int := match t1 with
    | '-' :: _ => -1
    | _ => 1
  let t2 : List Char := match t1 with
    | '-' :: r => r
    | '+' :: r => r
    | r => r
  let hex : Bool := match t2 with
    | '0' :: c :: _ => c = 'x' || c = 'X'
    | _ => false
  if hex then
    (parseDigitRun 16 isHexDigitB (t2.drop 2)).map (fun n => sgn * (n : Int))
  else
    (parseDigitRun 10 isDigitB t2).map (fun n => sgn * (n : Int))

/-- Error message for a token that does not parse (`"<token>" is not a
number`). -/
def notNumMsg (t : List Char) : String :=
  "\"" ++ String.mk t ++ "\" is not a number"

/-- Error message for an out-of-range value (`<n> is out of range (1-1000)`). -/
def rangeMsg (n : Int) : String :=
  toString n ++ " is out of range (1-1000)"

/-- The collection loop of `validateNumberInput`: partition tokens into valid
numbers and error messages, both in encounter order. -/
def collect : List (List Char) → List Int × List String
  | [] => ([], [])
  | t :: ts =>
    let r := collect ts
    match parseIntJS t with
    | none => (r.1, notNumMsg t :: r.2)
    | some n =>
      if n < 1 ∨ n > 1000 then (r.1, rangeMsg n :: r.2)
      else (n :: r.1, r.2)

/-- The in-range numbers collected for an input string. -/
def validsOf (s : String) : List Int :=
  (collect (tokensOf s)).1

/-- The error messages collected for an input string. -/
def errorsOf (s : String) : List String :=
  (collect (tokensOf s)).2

/-- Embedding of JavaScript `Array.prototype.join(sep)`. -/
def jsJoin (sep : String) : List String → String
  | [] => ""
  | [x] => x
  | x :: y :: t => x ++ sep ++ jsJoin sep (y :: t)

/-- Result record of `validateNumberInput`; absent JavaScript fields are
`none`. -/
structure VResult where
  valid : Bool
  numbers : Option (List Int)
  error : Option String
  message : Option String
deriving DecidableEq

/-- Embedding of `validateNumberInput` from `static/js/main.js`. -/
def validateNumberInput (s : String) : VResult :=
  let trimmed := trimChars s.toList
  if trimmed.isEmpty then
    ⟨true, none, none, some "Empty input - will use random numbers"⟩
  else
    let toks := splitToks trimmed []
    let vr := collect toks
    if vr.2.isEmpty then
      if vr.1.length > 25 then
        ⟨true, some (vr.1.take 25), none,
          some ("Too many numbers. Using first 25: " ++
            jsJoin ", " ((vr.1.take 25).map toString))⟩
      else
        ⟨true, some vr.1, none,
          some ("Valid numbers: " ++ jsJoin ", " (vr.1.map toString))⟩
    else
      ⟨false, none, some (jsJoin ", " vr.2), none⟩

/-- Embedding of `formatNumbers` from `static/js/main.js`: `slice(0, 5)` is
`take 5` and `slice(-5)` is `drop (length - 5)`. -/
def formatNumbers (ns : List Int) : String :=
  if ns.length ≤ 10 then jsJoin ", " (ns.map toString)
  else
    jsJoin ", " ((ns.take 5).map toString) ++ " ... " ++
      jsJoin ", " ((ns.drop (ns.length - 5)).map toString)

/-- A token that is literally a base-10 integer: an optional sign followed by
one or more decimal digits and nothing else. -/
def isBase10Lit (t : List Char) : Bool :=
  let body : List Char := match t with
    | '-' :: r => r
    | '+' :: r => r
    | r => r
  !body.isEmpty && body.all isDigitB

/-- Joining per the claim's words: the elements separated by `sep`, folded
from the left. -/
def joinedBySpec (sep : String) : List String → String
  | [] => ""
  | x :: xs => xs.foldl (fun a b => a ++ sep ++ b) x

/-! ## Array helpers shared by the step generators -/

/-- Read position `i` (0 outside the list; generators never read outside). -/
def gd (l : List ℕ) (i : ℕ) : ℕ :=
  l.getD i 0

/-- Exchange positions `i` and `j`. -/
def lswap (l : List ℕ) (i j : ℕ) : List ℕ :=
  (l.set i (gd l j)).set j (gd l i)

/-! ## Bubble sort -/

/-- One bubble pass carrying the element `a` currently being compared along
the remaining suffix; `pre` is the already passed part, used for snapshots.
A `compare` step precedes each adjacent comparison and a `swap` step records
each exchange; the flag reports whether any swap happened. -/
def bpassGo (d : Dir) (pre : List ℕ) (a : ℕ) : List ℕ → List ℕ × Bool × List Step
  | [] => ([a], false, [])
  | b :: t =>
    let i := pre.length
    let cmp := mkStep .compare [i, i + 1] (pre ++ a :: b :: t)
    if shouldSwap d a b then
      let sw := mkStep .swap [i, i + 1] (pre ++ b :: a :: t)
      let r := bpassGo d (pre ++ [b]) a t
      (b :: r.1, true, cmp :: sw :: r.2.2)
    else
      let r := bpassGo d (pre ++ [a]) b t
      (a :: r.1, r.2.1, cmp :: r.2.2)

/-- Modelled from the spec: one full bubble pass over the list. -/
def bpassS (d : Dir) (pre : List ℕ) : List ℕ → List ℕ × Bool × List Step
  | [] => ([], false, [])
  | a :: t => bpassGo d pre a t

/-- Number of out-of-order pairs; it bounds the number of bubble passes. -/
def ninv (d : Dir) : List ℕ → ℕ
  | [] => 0
  | a :: t => t.countP (shouldSwap d a) + ninv d t

/-- Modelled from the spec: repeat bubble passes until a full pass performs
no swap (the fuel provably suffices for that to happen). -/
def bubbleAux (d : Dir) : ℕ → List ℕ → List ℕ × List Step
  | 0, l => (l, [])
  | fuel + 1, l =>
    let p := bpassS d [] l
    if p.2.1 then
      let r := bubbleAux d fuel p.1
      (r.1, p.2.2 ++ r.2)
    else (p.1, p.2.2)

/-- Modelled from the spec: the bubble-sort step generator body. -/
def bubbleRun (d : Dir) (l : List ℕ) : List ℕ × List Step :=
  bubbleAux d (ninv d l + 1) l

/-! ## Insertion sort -/

/-- Insert `x` into the reversed sorted prefix `rp` (pure result). -/
def insAux (d : Dir) (x : ℕ) : List ℕ → List ℕ
  | [] => [x]
  | y :: rt => if shouldSwap d y x then y :: insAux d x rt else x :: y :: rt

/-- Modelled from the spec: shift `x` left through the sorted prefix while
the comparator demands, emitting a `compare` for each check and a `set` for
each shifted placement.  `rp` is the not-yet-passed prefix reversed, `sh`
the elements already shifted past `x`, and `tail` the unprocessed suffix. -/
def insStep (d : Dir) (x : ℕ) (tail : List ℕ) : List ℕ → List ℕ → List ℕ × List Step
  | [], _ => ([x], [])
  | y :: rt, sh =>
    let j := rt.length
    let cmp := mkStep .compare [j, j + 1] (rt.reverse ++ y :: x :: sh ++ tail)
    if shouldSwap d y x then
      let st := mkStep .set [j, j + 1] (rt.reverse ++ x :: y :: sh ++ tail)
      let r := insStep d x tail rt (y :: sh)
      (y :: r.1, cmp :: st :: r.2)
    else (x :: y :: rt, [cmp])

/-- Pure insertion-sort loop over the reversed sorted prefix. -/
def insertionAux (d : Dir) (rp : List ℕ) : List ℕ → List ℕ
  | [] => rp.reverse
  | x :: rest => insertionAux d (insAux d x rp) rest

/-- Modelled from the spec: insertion-sort loop with step emission. -/
def insertionAuxS (d : Dir) (rp : List ℕ) : List ℕ → List ℕ × List Step
  | [] => (rp.reverse, [])
  | x :: rest =>
    let r1 := insStep d x rest rp []
    let r2 := insertionAuxS d r1.1 rest
    (r2.1, r1.2 ++ r2.2)

/-- Modelled from the spec: the insertion-sort step generator body. -/
def insertRun (d : Dir) (l : List ℕ) : List ℕ × List Step :=
  insertionAuxS d [] l

/-! ## Selection sort -/

/-- Scan for the extremum: `bv`/`bi` the best value and index so far, `j` the
index of the next candidate. -/
def extFrom (d : Dir) : ℕ → ℕ → ℕ → List ℕ → ℕ × ℕ
  | bv, bi, _, [] => (bv, bi)
  | bv, bi, j, a :: t =>
    if shouldSwap d bv a then extFrom d a j (j + 1) t
    else extFrom d bv bi (j + 1) t

/-- Modelled from the spec: for each position scan the remainder for the
extremum (`compare` per scan step) and swap it to the front (one `swap`,
only when the extremum is elsewhere). -/
def selAux (d : Dir) : ℕ → List ℕ → List ℕ → List ℕ × List Step
  | _, _, [] => ([], [])
  | 0, _, l => (l, [])
  | fuel + 1, pre, x :: t =>
    let i := pre.length
    let mk := extFrom d x 0 1 t
    let cmps := (List.range t.length).map
      (fun j => mkStep .compare [i + 1 + j, i] (pre ++ x :: t))
    let l2 := lswap (x :: t) 0 mk.2
    let sws := if mk.2 = 0 then ([] : List Step)
      else [mkStep .swap [i, i + mk.2] (pre ++ l2)]
    let m := gd l2 0
    let r := selAux d fuel (pre ++ [m]) l2.tail
    (m :: r.1, cmps ++ sws ++ r.2)

/-- Modelled from the spec: the selection-sort step generator body. -/
def selectRun (d : Dir) (l : List ℕ) : List ℕ × List Step :=
  selAux d l.length [] l

/-! ## Quick sort -/

/-- Modelled from the spec: Lomuto partition of the segment against pivot
`p` (which sits just after the segment), emitting a `compare` per partition
test and a `swap` per exchange.  `sm` and `bg` are the already partitioned
small and big regions in their physical order. -/
def partLomuto (d : Dir) (p : ℕ) (pre suf : List ℕ) :
    List ℕ → List ℕ → List ℕ → List ℕ × List ℕ × List Step
  | sm, bg, [] => (sm, bg, [])
  | sm, bg, a :: rest =>
    let base := pre.length
    let aIdx := base + sm.length + bg.length
    let piIdx := base + sm.length + bg.length + rest.length + 1
    let cmp := mkStep .compare [aIdx, piIdx] (pre ++ sm ++ bg ++ a :: rest ++ p :: suf)
    if shouldSwap d a p then
      let r := partLomuto d p pre suf sm (bg ++ [a]) rest
      (r.1, r.2.1, cmp :: r.2.2)
    else
      match bg with
      | [] =>
        let r := partLomuto d p pre suf (sm ++ [a]) [] rest
        (r.1, r.2.1, cmp :: r.2.2)
      | b :: bt =>
        let sw := mkStep .swap [base + sm.length, aIdx]
          (pre ++ sm ++ a :: bt ++ b :: rest ++ p :: suf)
        let r := partLomuto d p pre suf (sm ++ [a]) (bt ++ [b]) rest
        (r.1, r.2.1, cmp :: sw :: r.2.2)

/-- Rotate the first element to the back: the arrangement a Lomuto swap
leaves in the big region. -/
def rot1 : List ℕ → List ℕ
  | [] => []
  | b0 :: bt => bt ++ [b0]

/-- Modelled from the spec: recursive quick sort with the last element as
pivot (`pivot` step when chosen, left subrange fully before the right). -/
def quickAux (d : Dir) : ℕ → List ℕ → List ℕ → List ℕ → List ℕ × List Step
  | 0, _, l, _ => (l, [])
  | _ + 1, _, [], _ => ([], [])
  | _ + 1, _, [a], _ => ([a], [])
  | fuel + 1, pre, a :: b :: t, suf =>
    let seg := a :: b :: t
    let p := seg.getLastD 0
    let body := seg.dropLast
    let piIdx := pre.length + body.length
    let pv := mkStep .pivot [piIdx] (pre ++ seg ++ suf)
    let pr := partLomuto d p pre suf [] [] body
    let sm := pr.1
    let bg2 : List ℕ := rot1 pr.2.1
    let fin := mkStep .swap [pre.length + sm.length, piIdx]
      (pre ++ sm ++ p :: bg2 ++ suf)
    let rl := quickAux d fuel pre sm (p :: bg2 ++ suf)
    let rr := quickAux d fuel (pre ++ rl.1 ++ [p]) bg2 suf
    (rl.1 ++ p :: rr.1, pv :: pr.2.2 ++ [fin] ++ rl.2 ++ rr.2)

/-- Modelled from the spec: the quick-sort step generator body. -/
def quickRun (d : Dir) (l : List ℕ) : List ℕ × List Step :=
  quickAux d l.length [] l []

/-! ## Merge sort -/

/-- Pure merge of two runs under the direction comparator (the fuel bounds
the total length and keeps the recursion structural). -/
def mrg (d : Dir) : ℕ → List ℕ → List ℕ → List ℕ
  | 0, as, bs => as ++ bs
  | _ + 1, [], bs => bs
  | _ + 1, as, [] => as
  | fuel + 1, x :: xs, y :: ys =>
    if shouldSwap d x y then y :: mrg d fuel (x :: xs) ys
    else x :: mrg d fuel xs (y :: ys)

/-- Emit one `mergeWrite` per element copied from an exhausted run. -/
def flushW (pre suf : List ℕ) : List ℕ → List ℕ → List Step
  | _, [] => []
  | out, a :: rest =>
    mkStep .mergeWrite [pre.length + out.length] (pre ++ out ++ a :: rest ++ suf) ::
      flushW pre suf (out ++ [a]) rest

/-- Modelled from the spec: merge two adjacent sorted runs, emitting a
`compare` per head comparison and a `mergeWrite` (never a `swap`) per
written element; `out` is the already merged output. -/
def mrgS (d : Dir) (pre suf : List ℕ) :
    ℕ → List ℕ → List ℕ → List ℕ → List ℕ × List Step
  | 0, out, as, bs => (out ++ as ++ bs, [])
  | _ + 1, out, [], bs => (out ++ bs, flushW pre suf out bs)
  | _ + 1, out, as, [] => (out ++ as, flushW pre suf out as)
  | fuel + 1, out, x :: xs, y :: ys =>
    let i := pre.length + out.length
    let cmp := mkStep .compare [i, i + xs.length + 1]
      (pre ++ out ++ x :: xs ++ y :: ys ++ suf)
    if shouldSwap d x y then
      let wr := mkStep .mergeWrite [i] (pre ++ (out ++ [y]) ++ x :: xs ++ ys ++ suf)
      let r := mrgS d pre suf fuel (out ++ [y]) (x :: xs) ys
      (r.1, cmp :: wr :: r.2)
    else
      let wr := mkStep .mergeWrite [i] (pre ++ (out ++ [x]) ++ xs ++ y :: ys ++ suf)
      let r := mrgS d pre suf fuel (out ++ [x]) xs (y :: ys)
      (r.1, cmp :: wr :: r.2)

/-- Modelled from the spec: top-down merge sort; sibling ranges fully merge
(deepest first) before their parent range. -/
def mergeAux (d : Dir) : ℕ → List ℕ → List ℕ → List ℕ → List ℕ × List Step
  | 0, _, l, _ => (l, [])
  | _ + 1, _, [], _ => ([], [])
  | _ + 1, _, [a], _ => ([a], [])
  | fuel + 1, pre, l, suf =>
    let k := l.length / 2
    let a := l.take k
    let b := l.drop k
    let r1 := mergeAux d fuel pre a (b ++ suf)
    let r2 := mergeAux d fuel (pre ++ r1.1) b suf
    let m := mrgS d pre suf (r1.1.length + r2.1.length) [] r1.1 r2.1
    (m.1, r1.2 ++ r2.2 ++ m.2)

/-- Modelled from the spec: the merge-sort step generator body. -/
def mergeRun (d : Dir) (l : List ℕ) : List ℕ × List Step :=
  mergeAux d l.length [] l []

/-! ## Heap sort -/

/-- The dominant child of node `i` within heap size `n`: the right child when
it exists and beats the left child under the direction comparator, else the
left child. -/
def heapChild (d : Dir) (l : List ℕ) (n i : ℕ) : ℕ :=
  if decide (2 * i + 2 < n) && shouldSwap d (gd l (2 * i + 2)) (gd l (2 * i + 1)) then
    2 * i + 2
  else 2 * i + 1

/-- Modelled from the spec: sift-down at index `i` within heap size `n`,
choosing the dominant child, emitting the comparisons and a `sift` step per
exchange. -/
def siftDownS (d : Dir) (n : ℕ) : ℕ → List ℕ → ℕ → List ℕ × List Step
  | 0, l, _ => (l, [])
  | fuel + 1, l, i =>
    if 2 * i + 1 < n then
      let c := heapChild d l n i
      let cmps := if decide (2 * i + 2 < n) then
          [mkStep .compare [2 * i + 1, 2 * i + 2] l, mkStep .compare [c, i] l]
        else [mkStep .compare [2 * i + 1, i] l]
      if shouldSwap d (gd l c) (gd l i) then
        let l2 := lswap l i c
        let sf := mkStep .sift [i, c] l2
        let r := siftDownS d n fuel l2 c
        (r.1, cmps ++ sf :: r.2)
      else (l, cmps)
    else (l, [])

/-- Modelled from the spec: build the heap by sift-down from the last parent
(index `k - 1`) up to the root. -/
def buildS (d : Dir) (n : ℕ) : ℕ → List ℕ → List ℕ × List Step
  | 0, l => (l, [])
  | k + 1, l =>
    let r1 := siftDownS d n n l k
    let r2 := buildS d n k r1.1
    (r2.1, r1.2 ++ r2.2)

/-- Modelled from the spec: repeatedly swap the root with the last heap
element (a `swap` step) and sift-down the reduced heap. -/
def extractS (d : Dir) : ℕ → List ℕ → List ℕ × List Step
  | 0, l => (l, [])
  | 1, l => (l, [])
  | k + 2, l =>
    let l2 := lswap l 0 (k + 1)
    let sw := mkStep .swap [0, k + 1] l2
    let r1 := siftDownS d (k + 1) (k + 1) l2 0
    let r2 := extractS d (k + 1) r1.1
    (r2.1, sw :: r1.2 ++ r2.2)

/-- Modelled from the spec: the heap-sort step generator body. -/
def heapRun (d : Dir) (l : List ℕ) : List ℕ × List Step :=
  let n := l.length
  let r1 := buildS d n (n / 2) l
  let r2 := extractS d n r1.1
  (r2.1, r1.2 ++ r2.2)

/-- The heap-order invariant below level `m`: every child `c` in the heap
region `[0, n)` whose parent index is at least `m` is dominated by its
parent. -/
def HeapFrom (d : Dir) (l : List ℕ) (n m : ℕ) : Prop :=
  ∀ c, 0 < c → c < n → m ≤ (c - 1) / 2 →
    dle d (gd l c) (gd l ((c - 1) / 2)) = true

/-- Membership of `j` in the binary-heap subtree rooted at `i` (following
parents from `j`). -/
def descN (i : ℕ) : ℕ → Bool
  | j =>
    if j < i then false
    else if j = i then true
    else descN i ((j - 1) / 2)
termination_by j => j
decreasing_by omega

/-! ## The six generators -/

/-- The six algorithms. -/
inductive Alg where
  | bubble : Alg
  | insertion : Alg
  | selection : Alg
  | quick : Alg
  | merge : Alg
  | heap : Alg
deriving DecidableEq

/-- Final array and intermediate steps of the selected algorithm. -/
def algoRun : Alg → Dir → List ℕ → List ℕ × List Step
  | .bubble => bubbleRun
  | .insertion => insertRun
  | .selection => selectRun
  | .quick => quickRun
  | .merge => mergeRun
  | .heap => heapRun

/-- Modelled from the spec: the full generated sequence — the algorithm's
steps followed by a final `done` step whose snapshot is the sorted array,
with `stepIndex` numbered from 0. -/
def generate (a : Alg) (d : Dir) (l : List ℕ) : List Step :=
  let r := algoRun a d l
  numberFrom 0 (r.2 ++ [⟨.done, [], r.1, 0⟩])

/-! # Theorems -/

/-! ## Comparator facts -/

theorem shouldSwap_eq_not_dle (d : Dir) (a b : ℕ) :
    shouldSwap d a b = !dle d a b := by
  cases d <;> simp only [shouldSwap, dle, ← decide_not, decide_eq_decide] <;> omega

theorem dle_of_shouldSwap_eq_false {d : Dir} {a b : ℕ}
    (h : shouldSwap d a b = false) : dle d a b = true := by
  cases d <;> simp only [shouldSwap, dle, decide_eq_false_iff_not,
    decide_eq_true_eq] at h ⊢ <;> omega

theorem dle_of_shouldSwap {d : Dir} {a b : ℕ}
    (h : shouldSwap d a b = true) : dle d b a = true := by
  cases d <;> simp only [shouldSwap, dle, decide_eq_true_eq] at h ⊢ <;> omega

theorem shouldSwap_asymm {d : Dir} {a b : ℕ}
    (h : shouldSwap d a b = true) : shouldSwap d b a = false := by
  cases d <;> simp only [shouldSwap, decide_eq_true_eq,
    decide_eq_false_iff_not] at h ⊢ <;> omega

theorem dle_refl (d : Dir) (a : ℕ) : dle d a a = true := by
  cases d <;> simp [dle]

theorem dle_trans {d : Dir} {a b c : ℕ} (h1 : dle d a b = true)
    (h2 : dle d b c = true) : dle d a c = true := by
  cases d <;> simp only [dle, decide_eq_true_eq] at h1 h2 ⊢ <;> omega

theorem dle_total (d : Dir) (a b : ℕ) : dle d a b = true ∨ dle d b a = true := by
  cases d <;> simp [dle] <;> omega

/-! ## Validator lemmas -/

theorem collect_valid_mem_bounds : ∀ (ts : List (List Char)) (n : Int),
    n ∈ (collect ts).1 → 1 ≤ n ∧ n ≤ 1000 := by
  intro ts
  induction ts with
  | nil => intro n h; simp [collect] at h
  | cons u us ih =>
    intro n h
    cases hpu : parseIntJS u with
    | none =>
      simp only [collect, hpu] at h
      exact ih n h
    | some m =>
      by_cases hr : m < 1 ∨ m > 1000
      · simp only [collect, hpu, if_pos hr] at h
        exact ih n h
      · simp only [collect, hpu, if_neg hr, List.mem_cons] at h
        rcases h with h | h
        · subst h; omega
        · exact ih n h

theorem mem_errors_of_parse_none : ∀ (ts : List (List Char)) (t : List Char),
    t ∈ ts → parseIntJS t = none → notNumMsg t ∈ (collect ts).2 := by
  intro ts
  induction ts with
  | nil => intro t h; cases h
  | cons u us ih =>
    intro t ht hp
    rcases List.mem_cons.mp ht with h | h
    · subst h
      simp [collect, hp]
    · have hmem := ih t h hp
      cases hpu : parseIntJS u with
      | none => simp only [collect, hpu]; exact List.mem_cons_of_mem _ hmem
      | some m =>
        by_cases hr : m < 1 ∨ m > 1000
        · simp only [collect, hpu, if_pos hr]
          exact List.mem_cons_of_mem _ hmem
        · simpa only [collect, hpu, if_neg hr] using hmem

theorem mem_errors_of_range : ∀ (ts : List (List Char)) (t : List Char) (n : Int),
    t ∈ ts → parseIntJS t = some n → n < 1 ∨ n > 1000 →
    rangeMsg n ∈ (collect ts).2 := by
  intro ts
  induction ts with
  | nil => intro t n h; cases h
  | cons u us ih =>
    intro t n ht hp hr
    rcases List.mem_cons.mp ht with h | h
    · subst h
      simp [collect, hp, if_pos hr]
    · have hmem := ih t n h hp hr
      cases hpu : parseIntJS u with
      | none => simp only [collect, hpu]; exact List.mem_cons_of_mem _ hmem
      | some m =>
        by_cases hr2 : m < 1 ∨ m > 1000
        · simp only [collect, hpu, if_pos hr2]
          exact List.mem_cons_of_mem _ hmem
        · simpa only [collect, hpu, if_neg hr2] using hmem

theorem tokensOf_eq_nil_of_trim_nil {s : String} (h : trimChars s.toList = []) :
    tokensOf s = [] := by
  unfold tokensOf
  rw [h]
  rfl

theorem trim_not_nil_of_errors {s : String} (h : errorsOf s ≠ []) :
    (trimChars s.toList).isEmpty = false := by
  rw [List.isEmpty_eq_false]
  intro hnil
  apply h
  unfold errorsOf
  rw [tokensOf_eq_nil_of_trim_nil hnil]
  rfl

theorem validate_of_errors_ne_nil {s : String} (h : errorsOf s ≠ []) :
    validateNumberInput s = ⟨false, none, some (jsJoin ", " (errorsOf s)), none⟩ := by
  have hne := trim_not_nil_of_errors h
  have h2 : (collect (splitToks (trimChars s.toList) [])).2.isEmpty = false := by
    rw [List.isEmpty_eq_false]
    exact h
  simp only [validateNumberInput, hne, Bool.false_eq_true, if_false, h2]
  rfl

theorem validate_trunc_of_many {s : String} (he : errorsOf s = [])
    (hlen : (validsOf s).length > 25) :
    validateNumberInput s =
      ⟨true, some ((validsOf s).take 25), none,
        some ("Too many numbers. Using first 25: " ++
          jsJoin ", " (((validsOf s).take 25).map toString))⟩ := by
  have hne : (trimChars s.toList).isEmpty = false := by
    rw [List.isEmpty_eq_false]
    intro hnil
    have : validsOf s = [] := by
      unfold validsOf
      rw [tokensOf_eq_nil_of_trim_nil hnil]
      rfl
    rw [this] at hlen
    simp at hlen
  have h2 : (collect (splitToks (trimChars s.toList) [])).2.isEmpty = true := by
    rw [List.isEmpty_iff]
    exact he
  have h3 : (collect (splitToks (trimChars s.toList) [])).1.length > 25 := hlen
  simp only [validateNumberInput, hne, Bool.false_eq_true, if_false, h2, if_true,
    if_pos h3]
  rfl

/-- Leading and trailing trimming of an all-whitespace list empties it. -/
theorem trim_nil_of_all_ws {cs : List Char} (h : cs.all isWsChar = true) :
    trimChars cs = [] := by
  have h1 : cs.dropWhile isWsChar = [] :=
    List.dropWhile_eq_nil_iff.mpr (by simpa [List.all_eq_true] using h)
  simp [trimChars, h1]

/-- C2: every empty or whitespace-only input yields a success with `null`
numbers and the informational message signalling random substitution; in
particular `validateNumberInput ""` does. -/
theorem claim_c2_empty_input :
    (∀ s : String, s.toList.all isWsChar = true →
      validateNumberInput s =
        ⟨true, none, none, some "Empty input - will use random numbers"⟩) ∧
    validateNumberInput "" =
      ⟨true, none, none, some "Empty input - will use random numbers"⟩ := by
  constructor
  · intro s hs
    have h1 : trimChars s.data = [] := trim_nil_of_all_ws hs
    simp [validateNumberInput, h1]
  · decide

theorem claim_c2_witness :
    validateNumberInput " \t " =
      ⟨true, none, none, some "Empty input - will use random numbers"⟩ :=
  claim_c2_empty_input.1 " \t " (by decide)

/-- C3: tokenization splits on commas and whitespace runs and never yields an
empty token, so mixed delimiters are accepted: `"5, 10  15"`, `"5 10 15"` and
`"5,10,15"` validate identically, to the numbers 5, 10, 15. -/
theorem claim_c3_tokenization :
    (∀ cs acc : List Char, (splitToks cs acc).all (fun t => !t.isEmpty) = true) ∧
    validateNumberInput "5, 10  15" = validateNumberInput "5 10 15" ∧
    validateNumberInput "5, 10  15" = validateNumberInput "5,10,15" ∧
    validateNumberInput "5, 10  15" =
      ⟨true, some [5, 10, 15], none, some "Valid numbers: 5, 10, 15"⟩ := by
  refine ⟨?_, by decide, by decide, by decide⟩
  intro cs
  induction cs with
  | nil =>
    intro acc
    cases acc <;> simp [splitToks]
  | cons c rest ih =>
    intro acc
    cases h : isDelim c with
    | true =>
      cases acc with
      | nil => simpa [splitToks, h] using ih []
      | cons a as => simp [splitToks, h, ih []]
    | false => simpa [splitToks, h] using ih (c :: acc)

/-- C4 counterexample: the token `12abc` is not a base-10 integer literal,
yet the validator accepts the input `"12abc"` as the number 12 instead of
collecting a parse error. -/
theorem claim_c4_counterexample :
    isBase10Lit ['1', '2', 'a', 'b', 'c'] = false ∧
    tokensOf "12abc" = [['1', '2', 'a', 'b', 'c']] ∧
    validateNumberInput "12abc" =
      ⟨true, some [12], none, some "Valid numbers: 12"⟩ := by decide

/-- C4 (amended): every token on which `parseInt` yields NaN — i.e. with no
leading integer prefix — is collected into the error list with the message
`"<token>" is not a number`, and the overall result is a failure carrying
the joined error list (tokens with a numeric prefix instead parse to that
prefix); in particular `"abc 5"` fails with an error mentioning `abc`. -/
theorem claim_c4_amended :
    ∀ (s : String) (t : List Char), t ∈ tokensOf s → parseIntJS t = none →
      notNumMsg t ∈ errorsOf s ∧
      (validateNumberInput s).valid = false ∧
      (validateNumberInput s).error = some (jsJoin ", " (errorsOf s)) := by
  intro s t ht hp
  have hmem : notNumMsg t ∈ errorsOf s := mem_errors_of_parse_none _ t ht hp
  have hne : errorsOf s ≠ [] := List.ne_nil_of_mem hmem
  rw [validate_of_errors_ne_nil hne]
  exact ⟨hmem, rfl, rfl⟩

theorem claim_c4_witness :
    notNumMsg ['a', 'b', 'c'] ∈ errorsOf "abc 5" ∧
    (validateNumberInput "abc 5").valid = false ∧
    (validateNumberInput "abc 5").error = some (jsJoin ", " (errorsOf "abc 5")) :=
  claim_c4_amended "abc 5" ['a', 'b', 'c'] (by decide) (by decide)

/-- C5: every token parsing to an integer outside 1..1000 contributes the
message `<n> is out of range (1-1000)` for its parsed value `n`, and
`"0 1001"` reports both out-of-range values. -/
theorem claim_c5_range_errors :
    (∀ (s : String) (t : List Char) (n : Int), t ∈ tokensOf s →
      parseIntJS t = some n → n < 1 ∨ n > 1000 →
      rangeMsg n ∈ errorsOf s ∧ (validateNumberInput s).valid = false ∧
      (validateNumberInput s).error = some (jsJoin ", " (errorsOf s))) ∧
    validateNumberInput "0 1001" =
      ⟨false, none,
        some "0 is out of range (1-1000), 1001 is out of range (1-1000)",
        none⟩ := by
  constructor
  · intro s t n ht hp hr
    have hmem := mem_errors_of_range _ t n ht hp hr
    have hne : errorsOf s ≠ [] := List.ne_nil_of_mem hmem
    rw [validate_of_errors_ne_nil hne]
    exact ⟨hmem, rfl, rfl⟩
  · decide

theorem claim_c5_witness :
    rangeMsg 0 ∈ errorsOf "0 1001" ∧
    (validateNumberInput "0 1001").valid = false ∧
    (validateNumberInput "0 1001").error = some (jsJoin ", " (errorsOf "0 1001")) :=
  claim_c5_range_errors.1 "0 1001" ['0'] 0 (by decide) (by decide) (by decide)

/-- C6: whenever any parse or range error was collected, the result is one
single failure whose error joins all the messages in encounter order, and
no numbers are returned. -/
theorem claim_c6_error_aggregation :
    ∀ s : String, errorsOf s ≠ [] →
      validateNumberInput s =
        ⟨false, none, some (jsJoin ", " (errorsOf s)), none⟩ :=
  fun _ h => validate_of_errors_ne_nil h

theorem claim_c6_witness :
    validateNumberInput "abc 0 5" =
      ⟨false, none, some (jsJoin ", " (errorsOf "abc 0 5")), none⟩ :=
  claim_c6_error_aggregation "abc 0 5" (by decide)

/-- C7: with no errors and more than 25 valid numbers the result is a
success carrying the first 25 numbers in input order plus a truncation
notice message (not an error). -/
theorem claim_c7_truncation :
    ∀ s : String, errorsOf s = [] → (validsOf s).length > 25 →
      validateNumberInput s =
        ⟨true, some ((validsOf s).take 25), none,
          some ("Too many numbers. Using first 25: " ++
            jsJoin ", " (((validsOf s).take 25).map toString))⟩ :=
  fun _ he hl => validate_trunc_of_many he hl

theorem claim_c7_witness :
    validateNumberInput
        "1 2 3 4 5 6 7 8 9 10 11 12 13 14 15 16 17 18 19 20 21 22 23 24 25 26 27 28 29 30" =
      ⟨true,
        some ((validsOf
          "1 2 3 4 5 6 7 8 9 10 11 12 13 14 15 16 17 18 19 20 21 22 23 24 25 26 27 28 29 30").take 25),
        none,
        some ("Too many numbers. Using first 25: " ++
          jsJoin ", " (((validsOf
            "1 2 3 4 5 6 7 8 9 10 11 12 13 14 15 16 17 18 19 20 21 22 23 24 25 26 27 28 29 30").take 25).map
              toString))⟩ :=
  claim_c7_truncation
    "1 2 3 4 5 6 7 8 9 10 11 12 13 14 15 16 17 18 19 20 21 22 23 24 25 26 27 28 29 30"
    (by decide) (by decide)

/-- C8: a successful result with numbers always satisfies the NumberList
bounds: at most 25 values, each an integer within 1..1000. -/
theorem claim_c8_output_bounds :
    ∀ (s : String) (ns : List Int), (validateNumberInput s).numbers = some ns →
      ns.length ≤ 25 ∧ ∀ n ∈ ns, 1 ≤ n ∧ n ≤ 1000 := by
  intro s ns h
  simp only [validateNumberInput, List.isEmpty_iff] at h
  by_cases he : trimChars s.toList = []
  · rw [if_pos he] at h
    simp at h
  · rw [if_neg he] at h
    by_cases herr : (collect (splitToks (trimChars s.toList) [])).2 = []
    · rw [if_pos herr] at h
      by_cases hlen : 25 < (collect (splitToks (trimChars s.toList) [])).1.length
      · rw [if_pos hlen] at h
        have hns : ns = List.take 25 (collect (splitToks (trimChars s.toList) [])).1 := by
          simpa using h.symm
        subst hns
        refine ⟨List.length_take_le 25 _, ?_⟩
        intro n hn
        exact collect_valid_mem_bounds _ n (List.mem_of_mem_take hn)
      · rw [if_neg hlen] at h
        have hns : ns = (collect (splitToks (trimChars s.toList) [])).1 := by
          simpa using h.symm
        subst hns
        refine ⟨by omega, ?_⟩
        intro n hn
        exact collect_valid_mem_bounds _ n hn
    · rw [if_neg herr] at h
      simp at h

theorem claim_c8_witness :
    ([5, 10] : List Int).length ≤ 25 ∧
    ∀ n ∈ ([5, 10] : List Int), 1 ≤ n ∧ n ≤ 1000 :=
  claim_c8_output_bounds "5 10" [5, 10] (by decide)

/-- C9: validation is deterministic — the result is a pure function of the
input string, with no hidden state. -/
theorem claim_c9_deterministic :
    ∀ s1 s2 : String, s1 = s2 →
      validateNumberInput s1 = validateNumberInput s2 := by
  intro s1 s2 h
  rw [h]

theorem claim_c9_witness :
    validateNumberInput "1 2" = validateNumberInput "1 2" :=
  claim_c9_deterministic "1 2" "1 2" rfl

/-- Prepending onto the seed of a separator fold is the same as prepending
onto its result. -/
theorem foldl_sep_append (sep pre : String) :
    ∀ (xs : List String) (a : String),
      pre ++ xs.foldl (fun u v => u ++ sep ++ v) a =
        xs.foldl (fun u v => u ++ sep ++ v) (pre ++ a) := by
  intro xs
  induction xs with
  | nil => intro a; rfl
  | cons z zs ih =>
    intro a
    simp only [List.foldl_cons]
    rw [ih (a ++ sep ++ z), ← String.append_assoc, ← String.append_assoc]

/-- The embedded JavaScript join agrees with the left-fold join. -/
theorem jsJoin_eq_joinedBySpec (sep : String) :
    ∀ xs : List String, jsJoin sep xs = joinedBySpec sep xs := by
  intro xs
  induction xs with
  | nil => rfl
  | cons x ys ih =>
    cases ys with
    | nil => rfl
    | cons y t =>
      show x ++ sep ++ jsJoin sep (y :: t) = (y :: t).foldl (fun u v => u ++ sep ++ v) x
      rw [ih]
      show x ++ sep ++ t.foldl (fun u v => u ++ sep ++ v) y = _
      simp only [List.foldl_cons]
      exact foldl_sep_append sep (x ++ sep) t y

/-- C10: `formatNumbers` joins up to 10 numbers with a comma-space
separator; a longer list shows the first five, an ellipsis, and the last
five, each joined the same way. -/
theorem claim_c10_format_numbers :
    ∀ ns : List Int,
      formatNumbers ns =
        if ns.length ≤ 10 then joinedBySpec ", " (ns.map toString)
        else joinedBySpec ", " ((ns.take 5).map toString) ++ " ... " ++
          joinedBySpec ", " ((ns.drop (ns.length - 5)).map toString) := by
  intro ns
  unfold formatNumbers
  by_cases h : ns.length ≤ 10 <;> simp [h, jsJoin_eq_joinedBySpec]

/-! ## Sortedness helper lemmas -/

theorem dirSorted_single (d : Dir) (a : ℕ) : dirSorted d [a] := by
  simp [dirSorted]

theorem dirSorted_cons {d : Dir} {a : ℕ} {t : List ℕ}
    (ha : ∀ x ∈ t, dle d a x = true) (h : dirSorted d t) : dirSorted d (a :: t) :=
  List.pairwise_cons.mpr ⟨ha, h⟩

theorem dirSorted_cons_cons {d : Dir} {a b : ℕ} {t : List ℕ}
    (hab : dle d a b = true) (h : dirSorted d (b :: t)) :
    dirSorted d (a :: b :: t) := by
  rcases List.pairwise_cons.mp h with ⟨hb, _⟩
  refine List.pairwise_cons.mpr ⟨?_, h⟩
  intro x hx
  rcases List.mem_cons.mp hx with rfl | hx
  · exact hab
  · exact dle_trans hab (hb x hx)

/-! ## Array helper lemmas -/

theorem length_lswap (l : List ℕ) (i j : ℕ) : (lswap l i j).length = l.length := by
  simp [lswap]

theorem gd_cons_zero (x : ℕ) (t : List ℕ) : gd (x :: t) 0 = x := rfl

theorem gd_cons_succ (x : ℕ) (t : List ℕ) (n : ℕ) : gd (x :: t) (n + 1) = gd t n := rfl

theorem gd_set_self {l : List ℕ} {i : ℕ} (h : i < l.length) (v : ℕ) :
    gd (l.set i v) i = v := by
  unfold gd
  rw [List.getD_eq_getElem _ _ (by simpa using h)]
  simp

theorem gd_set_ne {l : List ℕ} {i j : ℕ} (h : i ≠ j) (v : ℕ) :
    gd (l.set i v) j = gd l j := by
  unfold gd
  by_cases hj : j < l.length
  · rw [List.getD_eq_getElem _ _ (by simpa using hj), List.getD_eq_getElem _ _ hj]
    exact List.getElem_set_ne h _
  · rw [List.getD_eq_default _ _ (by simpa using Nat.le_of_not_lt hj),
      List.getD_eq_default _ _ (Nat.le_of_not_lt hj)]

theorem set_gd_self : ∀ (l : List ℕ) (i : ℕ), i < l.length → l.set i (gd l i) = l := by
  intro l
  induction l with
  | nil => intro i h; simp at h
  | cons x t ih =>
    intro i hi
    cases i with
    | zero => rfl
    | succ n =>
      have := ih n (by simpa using hi)
      simp [gd] at this ⊢
      exact this

theorem lswap_self (l : List ℕ) (i : ℕ) (h : i < l.length) : lswap l i i = l := by
  unfold lswap
  rw [List.set_set, set_gd_self l i h]

theorem lswap_comm (l : List ℕ) (i j : ℕ) : lswap l i j = lswap l j i := by
  by_cases h : i = j
  · subst h; rfl
  · unfold lswap
    exact List.set_comm _ _ _ h

theorem lswap_cons_succ (x : ℕ) (t : List ℕ) (i j : ℕ) :
    lswap (x :: t) (i + 1) (j + 1) = x :: lswap t i j := by
  simp [lswap, gd]

theorem gd_cons_set_perm (x : ℕ) : ∀ (t : List ℕ) (m : ℕ), m < t.length →
    List.Perm (gd t m :: t.set m x) (x :: t) := by
  intro t
  induction t with
  | nil => intro m h; simp at h
  | cons y r ih =>
    intro m hm
    cases m with
    | zero => exact List.Perm.swap x y r
    | succ n =>
      have h2 := ih n (by simpa using hm)
      exact ((List.Perm.swap y (gd r n) (r.set n x)).trans
        (h2.cons y)).trans (List.Perm.swap x y r)

theorem lswap_perm_lt : ∀ (l : List ℕ) (i j : ℕ), i < j → j < l.length →
    List.Perm (lswap l i j) l := by
  intro l
  induction l with
  | nil => intro i j hij h; simp at h
  | cons x t ih =>
    intro i j hij hj
    match i, j, hij with
    | 0, m + 1, _ =>
      have he : lswap (x :: t) 0 (m + 1) = gd t m :: t.set m x := by
        simp [lswap, gd]
      rw [he]
      exact gd_cons_set_perm x t m (by simpa using hj)
    | i' + 1, j' + 1, hij =>
      rw [lswap_cons_succ]
      exact (ih i' j' (by omega) (by simpa using hj)).cons x

theorem lswap_perm (l : List ℕ) (i j : ℕ) (hi : i < l.length) (hj : j < l.length) :
    List.Perm (lswap l i j) l := by
  rcases Nat.lt_trichotomy i j with h | h | h
  · exact lswap_perm_lt l i j h hj
  · subst h; rw [lswap_self l i hi]
  · rw [lswap_comm]; exact lswap_perm_lt l j i h hi

theorem gd_lswap_fst (l : List ℕ) (i j : ℕ) (hi : i < l.length) :
    gd (lswap l i j) i = gd l j := by
  by_cases hij : i = j
  · subst hij
    unfold lswap
    rw [List.set_set, set_gd_self l i hi]
  · unfold lswap
    rw [gd_set_ne (show j ≠ i from fun h => hij h.symm),
      gd_set_self (by simpa using hi)]

theorem gd_lswap_snd (l : List ℕ) (i j : ℕ) (hj : j < l.length) :
    gd (lswap l i j) j = gd l i := by
  unfold lswap
  rw [gd_set_self (by simpa using hj)]

theorem gd_lswap_other (l : List ℕ) {i j k : ℕ} (h1 : k ≠ i) (h2 : k ≠ j) :
    gd (lswap l i j) k = gd l k := by
  unfold lswap
  rw [gd_set_ne (fun h => h2 h.symm), gd_set_ne (fun h => h1 h.symm)]

/-! ## Bubble sort lemmas -/

theorem bpassGo_perm (d : Dir) : ∀ (t pre : List ℕ) (a : ℕ),
    List.Perm (bpassGo d pre a t).1 (a :: t) := by
  intro t
  induction t with
  | nil => intro pre a; simp [bpassGo]
  | cons b t ih =>
    intro pre a
    by_cases h : shouldSwap d a b = true
    · simp only [bpassGo, h, if_true]
      exact ((ih (pre ++ [b]) a).cons b).trans (List.Perm.swap a b t)
    · simp only [bpassGo, h, if_false, Bool.false_eq_true]
      exact (ih (pre ++ [a]) b).cons a

theorem bpassGo_noswap (d : Dir) : ∀ (t pre : List ℕ) (a : ℕ),
    (bpassGo d pre a t).2.1 = false →
    (bpassGo d pre a t).1 = a :: t ∧ dirSorted d (a :: t) := by
  intro t
  induction t with
  | nil => intro pre a _; exact ⟨rfl, dirSorted_single d a⟩
  | cons b t ih =>
    intro pre a hf
    by_cases h : shouldSwap d a b = true
    · simp only [bpassGo, h, if_true] at hf
      exact Bool.noConfusion hf
    · simp only [bpassGo, h, if_false, Bool.false_eq_true] at hf ⊢
      rcases ih (pre ++ [a]) b hf with ⟨h1, h2⟩
      rw [h1]
      exact ⟨rfl, dirSorted_cons_cons (dle_of_shouldSwap_eq_false
        (Bool.not_eq_true _ ▸ h)) h2⟩

theorem bpassGo_ninv (d : Dir) : ∀ (t pre : List ℕ) (a : ℕ),
    ninv d (bpassGo d pre a t).1 ≤ ninv d (a :: t) ∧
    ((bpassGo d pre a t).2.1 = true →
      ninv d (bpassGo d pre a t).1 < ninv d (a :: t)) := by
  intro t
  induction t with
  | nil => intro pre a; simp [bpassGo, ninv]
  | cons b t ih =>
    intro pre a
    by_cases h : shouldSwap d a b = true
    · simp only [bpassGo, h, if_true]
      have hperm := bpassGo_perm d t (pre ++ [b]) a
      have hba : shouldSwap d b a = false := shouldSwap_asymm h
      have hcount : ((bpassGo d (pre ++ [b]) a t).1.countP (shouldSwap d b)) =
          t.countP (shouldSwap d b) := by
        rw [hperm.countP_eq, List.countP_cons, hba]
        simp
      have hle := (ih (pre ++ [b]) a).1
      have hnr : ninv d (b :: (bpassGo d (pre ++ [b]) a t).1) =
          t.countP (shouldSwap d b) + ninv d (bpassGo d (pre ++ [b]) a t).1 := by
        simp only [ninv, hcount]
      have hninv1 : ninv d (a :: t) = t.countP (shouldSwap d a) + ninv d t := rfl
      have hninv2 : ninv d (a :: b :: t) =
          (b :: t).countP (shouldSwap d a) + (t.countP (shouldSwap d b) + ninv d t) :=
        rfl
      have hcnt2 : (b :: t).countP (shouldSwap d a) =
          t.countP (shouldSwap d a) + 1 := by
        rw [List.countP_cons, h]
        simp
      have goal1 : ninv d (b :: (bpassGo d (pre ++ [b]) a t).1) <
          ninv d (a :: b :: t) := by
        omega
      exact ⟨Nat.le_of_lt goal1, fun _ => goal1⟩
    · simp only [bpassGo, h, if_false, Bool.false_eq_true]
      have hperm := bpassGo_perm d t (pre ++ [a]) b
      have hcount : ((bpassGo d (pre ++ [a]) b t).1.countP (shouldSwap d a)) =
          (b :: t).countP (shouldSwap d a) := hperm.countP_eq _
      rcases ih (pre ++ [a]) b with ⟨hle, hlt⟩
      have hnr : ninv d (a :: (bpassGo d (pre ++ [a]) b t).1) =
          (b :: t).countP (shouldSwap d a) + ninv d (bpassGo d (pre ++ [a]) b t).1 := by
        simp only [ninv, hcount]
      have hninv2 : ninv d (a :: b :: t) =
          (b :: t).countP (shouldSwap d a) + ninv d (b :: t) := rfl
      refine ⟨by omega, fun hf => ?_⟩
      have := hlt hf
      omega

theorem bpassS_perm (d : Dir) (pre l : List ℕ) :
    List.Perm (bpassS d pre l).1 l := by
  cases l with
  | nil => simp [bpassS]
  | cons a t => exact bpassGo_perm d t pre a

theorem bpassS_noswap (d : Dir) (pre l : List ℕ)
    (h : (bpassS d pre l).2.1 = false) :
    (bpassS d pre l).1 = l ∧ dirSorted d l := by
  cases l with
  | nil => exact ⟨rfl, List.Pairwise.nil⟩
  | cons a t => exact bpassGo_noswap d t pre a h

theorem bpassS_ninv_lt (d : Dir) (pre l : List ℕ)
    (h : (bpassS d pre l).2.1 = true) :
    ninv d (bpassS d pre l).1 < ninv d l := by
  cases l with
  | nil => simp [bpassS] at h
  | cons a t => exact (bpassGo_ninv d t pre a).2 h

theorem bubbleAux_correct (d : Dir) : ∀ (fuel : ℕ) (l : List ℕ),
    ninv d l < fuel →
    dirSorted d (bubbleAux d fuel l).1 ∧ List.Perm (bubbleAux d fuel l).1 l := by
  intro fuel
  induction fuel with
  | zero => intro l h; omega
  | succ f ih =>
    intro l h
    by_cases hf : (bpassS d [] l).2.1 = true
    · have hlt := bpassS_ninv_lt d [] l hf
      have hrec := ih (bpassS d [] l).1 (by omega)
      simp only [bubbleAux, hf, if_true]
      exact ⟨hrec.1, hrec.2.trans (bpassS_perm d [] l)⟩
    · rw [Bool.not_eq_true] at hf
      rcases bpassS_noswap d [] l hf with ⟨h1, h2⟩
      simp only [bubbleAux, hf, Bool.false_eq_true, if_false]
      rw [h1]
      exact ⟨h2, List.Perm.refl l⟩

theorem bubbleRun_correct (d : Dir) (l : List ℕ) :
    dirSorted d (bubbleRun d l).1 ∧ List.Perm (bubbleRun d l).1 l :=
  bubbleAux_correct d (ninv d l + 1) l (by omega)

/-! ## Insertion sort lemmas -/

theorem insStep_fst (d : Dir) (x : ℕ) (tail : List ℕ) : ∀ (rp sh : List ℕ),
    (insStep d x tail rp sh).1 = insAux d x rp := by
  intro rp
  induction rp with
  | nil => intro sh; rfl
  | cons y rt ih =>
    intro sh
    by_cases h : shouldSwap d y x = true
    · simp only [insStep, insAux, h, if_true, ih]
    · simp only [insStep, insAux, h, if_false, Bool.false_eq_true]

theorem insAux_perm (d : Dir) (x : ℕ) : ∀ rp : List ℕ,
    List.Perm (insAux d x rp) (x :: rp) := by
  intro rp
  induction rp with
  | nil => exact List.Perm.refl _
  | cons y rt ih =>
    by_cases h : shouldSwap d y x = true
    · simp only [insAux, h, if_true]
      exact (ih.cons y).trans (List.Perm.swap x y rt)
    · simp only [insAux, h, if_false, Bool.false_eq_true]
      exact List.Perm.refl _

theorem insAux_revSorted (d : Dir) (x : ℕ) : ∀ rp : List ℕ,
    rp.Pairwise (fun a b => dle d b a = true) →
    (insAux d x rp).Pairwise (fun a b => dle d b a = true) := by
  intro rp
  induction rp with
  | nil => intro _; simp [insAux]
  | cons y rt ih =>
    intro h
    rcases List.pairwise_cons.mp h with ⟨hy, hrt⟩
    by_cases hc : shouldSwap d y x = true
    · simp only [insAux, hc, if_true]
      refine List.pairwise_cons.mpr ⟨?_, ih hrt⟩
      intro z hz
      rcases (insAux_perm d x rt).mem_iff.mp hz with hz2
      rcases List.mem_cons.mp hz2 with rfl | hz3
      · exact dle_of_shouldSwap hc
      · exact hy z hz3
    · simp only [insAux, hc, if_false, Bool.false_eq_true]
      refine List.pairwise_cons.mpr ⟨?_, h⟩
      intro z hz
      rcases List.mem_cons.mp hz with rfl | hz2
      · exact dle_of_shouldSwap_eq_false (Bool.not_eq_true _ ▸ hc)
      · exact dle_trans (hy z hz2)
          (dle_of_shouldSwap_eq_false (Bool.not_eq_true _ ▸ hc))

theorem insertionAux_correct (d : Dir) : ∀ (rest rp : List ℕ),
    rp.Pairwise (fun a b => dle d b a = true) →
    dirSorted d (insertionAux d rp rest) ∧
    List.Perm (insertionAux d rp rest) (rp.reverse ++ rest) := by
  intro rest
  induction rest with
  | nil =>
    intro rp h
    constructor
    · exact List.pairwise_reverse.mpr h
    · simp [insertionAux]
  | cons x rest ih =>
    intro rp h
    have h2 := insAux_revSorted d x rp h
    rcases ih (insAux d x rp) h2 with ⟨hs, hp⟩
    refine ⟨hs, ?_⟩
    have hA : List.Perm ((insAux d x rp).reverse) (x :: rp) :=
      ((insAux d x rp).reverse_perm).trans (insAux_perm d x rp)
    have hB : List.Perm ((insAux d x rp).reverse ++ rest) ((x :: rp) ++ rest) :=
      hA.append_right rest
    have hC : List.Perm ((x :: rp) ++ rest) (x :: (rp.reverse ++ rest)) := by
      simp only [List.cons_append]
      exact ((rp.reverse_perm.symm).append_right rest).cons x
    have hD : List.Perm (rp.reverse ++ x :: rest) (x :: (rp.reverse ++ rest)) :=
      List.perm_middle
    exact ((hp.trans hB).trans hC).trans hD.symm

theorem insertionAuxS_fst (d : Dir) : ∀ (rest rp : List ℕ),
    (insertionAuxS d rp rest).1 = insertionAux d rp rest := by
  intro rest
  induction rest with
  | nil => intro rp; rfl
  | cons x rest ih =>
    intro rp
    simp only [insertionAuxS, insertionAux, insStep_fst, ih]

theorem insertRun_correct (d : Dir) (l : List ℕ) :
    dirSorted d (insertRun d l).1 ∧ List.Perm (insertRun d l).1 l := by
  have h1 : (insertRun d l).1 = insertionAux d [] l := insertionAuxS_fst d l []
  rw [h1]
  have := insertionAux_correct d l [] List.Pairwise.nil
  simpa using this

/-! ## Selection sort lemmas -/

theorem extFrom_spec (d : Dir) : ∀ (t : List ℕ) (bv bi j : ℕ),
    dle d (extFrom d bv bi j t).1 bv = true ∧
    (∀ a ∈ t, dle d (extFrom d bv bi j t).1 a = true) ∧
    ((extFrom d bv bi j t).1 = bv ∧ (extFrom d bv bi j t).2 = bi ∨
      ∃ off, off < t.length ∧ (extFrom d bv bi j t).2 = j + off ∧
        t.getD off 0 = (extFrom d bv bi j t).1) := by
  intro t
  induction t with
  | nil => intro bv bi j; exact ⟨dle_refl d bv, by simp, Or.inl ⟨rfl, rfl⟩⟩
  | cons a t ih =>
    intro bv bi j
    by_cases h : shouldSwap d bv a = true
    · simp only [extFrom, h, if_true]
      rcases ih a j (j + 1) with ⟨h1, h2, h3⟩
      refine ⟨dle_trans h1 (dle_of_shouldSwap h), ?_, ?_⟩
      · intro z hz
        rcases List.mem_cons.mp hz with rfl | hz
        · exact h1
        · exact h2 z hz
      · rcases h3 with ⟨he, hi⟩ | ⟨off, ho, hi, hv⟩
        · refine Or.inr ⟨0, by simp, by omega, ?_⟩
          rw [List.getD_cons_zero, he]
        · refine Or.inr ⟨off + 1, by simpa using ho, by omega, ?_⟩
          rw [List.getD_cons_succ]
          exact hv
    · simp only [extFrom, h, if_false, Bool.false_eq_true]
      rcases ih bv bi (j + 1) with ⟨h1, h2, h3⟩
      refine ⟨h1, ?_, ?_⟩
      · intro z hz
        rcases List.mem_cons.mp hz with rfl | hz
        · exact dle_trans h1
            (dle_of_shouldSwap_eq_false (Bool.not_eq_true _ ▸ h))
        · exact h2 z hz
      · rcases h3 with hl | ⟨off, ho, hi, hv⟩
        · exact Or.inl hl
        · refine Or.inr ⟨off + 1, by simpa using ho, by omega, ?_⟩
          rw [List.getD_cons_succ]
          exact hv

theorem selAux_correct (d : Dir) : ∀ (fuel : ℕ) (l pre : List ℕ),
    l.length ≤ fuel →
    dirSorted d (selAux d fuel pre l).1 ∧
    List.Perm (selAux d fuel pre l).1 l := by
  intro fuel
  induction fuel with
  | zero =>
    intro l pre h
    have hl : l = [] := by
      cases l with
      | nil => rfl
      | cons x t => simp at h
    subst hl
    exact ⟨List.Pairwise.nil, List.Perm.refl _⟩
  | succ f ih =>
    intro l pre hlen
    cases l with
    | nil => exact ⟨List.Pairwise.nil, List.Perm.refl _⟩
    | cons x t =>
      rcases extFrom_spec d t x 0 1 with ⟨hbv, hall, hcase⟩
      have hidx : (extFrom d x 0 1 t).2 < (x :: t).length := by
        rcases hcase with ⟨_, hi⟩ | ⟨off, ho, hi, _⟩
        · rw [hi]; simp
        · rw [hi]; simp; omega
      have hval : gd (x :: t) (extFrom d x 0 1 t).2 = (extFrom d x 0 1 t).1 := by
        rcases hcase with ⟨he, hi⟩ | ⟨off, ho, hi, hv⟩
        · rw [hi, gd_cons_zero, he]
        · rw [hi]
          have h1off : 1 + off = off + 1 := by omega
          rw [h1off, gd_cons_succ]
          exact hv
      have hmin : ∀ z ∈ x :: t, dle d (extFrom d x 0 1 t).1 z = true := by
        intro z hz
        rcases List.mem_cons.mp hz with rfl | hz
        · exact hbv
        · exact hall z hz
      have hl2perm : List.Perm (lswap (x :: t) 0 (extFrom d x 0 1 t).2) (x :: t) :=
        lswap_perm _ 0 _ (by simp) hidx
      have hl2len : (lswap (x :: t) 0 (extFrom d x 0 1 t).2).length = t.length + 1 := by
        rw [length_lswap]; rfl
      have hl2ne : lswap (x :: t) 0 (extFrom d x 0 1 t).2 ≠ [] := by
        intro hc
        rw [hc] at hl2len
        simp at hl2len
      have hhead : gd (lswap (x :: t) 0 (extFrom d x 0 1 t).2) 0 =
          (extFrom d x 0 1 t).1 := by
        rw [gd_lswap_fst _ 0 _ (by simp)]
        exact hval
      have hdecomp : lswap (x :: t) 0 (extFrom d x 0 1 t).2 =
          gd (lswap (x :: t) 0 (extFrom d x 0 1 t).2) 0 ::
            (lswap (x :: t) 0 (extFrom d x 0 1 t).2).tail := by
        cases he : lswap (x :: t) 0 (extFrom d x 0 1 t).2 with
        | nil => exact absurd he hl2ne
        | cons m t2 => rfl
      have htlen : (lswap (x :: t) 0 (extFrom d x 0 1 t).2).tail.length ≤ f := by
        rw [List.length_tail, hl2len]
        have hx : t.length + 1 ≤ f + 1 := by simpa using hlen
        omega
      rcases ih (lswap (x :: t) 0 (extFrom d x 0 1 t).2).tail
          (pre ++ [gd (lswap (x :: t) 0 (extFrom d x 0 1 t).2) 0]) htlen with ⟨hs, hp⟩
      have hunfold : (selAux d (f + 1) pre (x :: t)).1 =
          gd (lswap (x :: t) 0 (extFrom d x 0 1 t).2) 0 ::
            (selAux d f (pre ++ [gd (lswap (x :: t) 0 (extFrom d x 0 1 t).2) 0])
              (lswap (x :: t) 0 (extFrom d x 0 1 t).2).tail).1 := rfl
      rw [hunfold]
      constructor
      · refine dirSorted_cons ?_ hs
        intro z hz
        have hz2 : z ∈ (lswap (x :: t) 0 (extFrom d x 0 1 t).2).tail :=
          hp.mem_iff.mp hz
        have hz3 : z ∈ lswap (x :: t) 0 (extFrom d x 0 1 t).2 := by
          rw [hdecomp]
          exact List.mem_cons_of_mem _ hz2
        have hz4 : z ∈ x :: t := hl2perm.mem_iff.mp hz3
        rw [hhead]
        exact hmin z hz4
      · have hcons : List.Perm
            (gd (lswap (x :: t) 0 (extFrom d x 0 1 t).2) 0 ::
              (selAux d f (pre ++ [gd (lswap (x :: t) 0 (extFrom d x 0 1 t).2) 0])
                (lswap (x :: t) 0 (extFrom d x 0 1 t).2).tail).1)
            (lswap (x :: t) 0 (extFrom d x 0 1 t).2) := by
          rw [hdecomp]
          exact hp.cons _
        exact hcons.trans hl2perm

theorem selectRun_correct (d : Dir) (l : List ℕ) :
    dirSorted d (selectRun d l).1 ∧ List.Perm (selectRun d l).1 l :=
  selAux_correct d l.length l [] (Nat.le_refl _)

/-! ## Merge sort lemmas -/

theorem mrg_perm (d : Dir) : ∀ (fuel : ℕ) (as bs : List ℕ),
    List.Perm (mrg d fuel as bs) (as ++ bs) := by
  intro fuel
  induction fuel with
  | zero => intro as bs; exact List.Perm.refl _
  | succ f ih =>
    intro as bs
    cases as with
    | nil => simp [mrg]
    | cons x xs =>
      cases bs with
      | nil => simp [mrg]
      | cons y ys =>
        by_cases h : shouldSwap d x y = true
        · simp only [mrg, h, if_true]
          exact ((ih (x :: xs) ys).cons y).trans List.perm_middle.symm
        · simp only [mrg, h, if_false, Bool.false_eq_true, List.cons_append]
          exact (ih xs (y :: ys)).cons x

theorem mrg_sorted (d : Dir) : ∀ (fuel : ℕ) (as bs : List ℕ),
    as.length + bs.length ≤ fuel → dirSorted d as → dirSorted d bs →
    dirSorted d (mrg d fuel as bs) := by
  intro fuel
  induction fuel with
  | zero =>
    intro as bs hlen _ _
    have ha : as = [] := List.eq_nil_of_length_eq_zero (by omega)
    have hb : bs = [] := List.eq_nil_of_length_eq_zero (by omega)
    subst ha; subst hb
    exact List.Pairwise.nil
  | succ f ih =>
    intro as bs hlen hs1 hs2
    cases as with
    | nil => simpa [mrg] using hs2
    | cons x xs =>
      cases bs with
      | nil => simpa [mrg] using hs1
      | cons y ys =>
        rcases List.pairwise_cons.mp hs1 with ⟨hx, hxs⟩
        rcases List.pairwise_cons.mp hs2 with ⟨hy, hys⟩
        by_cases h : shouldSwap d x y = true
        · simp only [mrg, h, if_true]
          refine dirSorted_cons ?_ (ih (x :: xs) ys (by simp at hlen ⊢; omega) hs1 hys)
          intro z hz
          have hz2 : z ∈ (x :: xs) ++ ys := (mrg_perm d f _ _).mem_iff.mp hz
          rcases List.mem_append.mp hz2 with hz3 | hz3
          · rcases List.mem_cons.mp hz3 with rfl | hz4
            · exact dle_of_shouldSwap h
            · exact dle_trans (dle_of_shouldSwap h) (hx z hz4)
          · exact hy z hz3
        · simp only [mrg, h, if_false, Bool.false_eq_true]
          have hxy : dle d x y = true :=
            dle_of_shouldSwap_eq_false (Bool.not_eq_true _ ▸ h)
          refine dirSorted_cons ?_ (ih xs (y :: ys) (by simp at hlen ⊢; omega) hxs hs2)
          intro z hz
          have hz2 : z ∈ xs ++ (y :: ys) := (mrg_perm d f _ _).mem_iff.mp hz
          rcases List.mem_append.mp hz2 with hz3 | hz3
          · exact hx z hz3
          · rcases List.mem_cons.mp hz3 with rfl | hz4
            · exact hxy
            · exact dle_trans hxy (hy z hz4)

theorem mrgS_fst (d : Dir) (pre suf : List ℕ) : ∀ (fuel : ℕ) (out as bs : List ℕ),
    (mrgS d pre suf fuel out as bs).1 = out ++ mrg d fuel as bs := by
  intro fuel
  induction fuel with
  | zero => intro out as bs; simp [mrgS, mrg]
  | succ f ih =>
    intro out as bs
    cases as with
    | nil => cases bs <;> rfl
    | cons x xs =>
      cases bs with
      | nil => rfl
      | cons y ys =>
        by_cases h : shouldSwap d x y = true
        · simp only [mrgS, mrg, h, if_true, ih, List.append_assoc, List.cons_append,
            List.nil_append]
        · simp only [mrgS, mrg, h, if_false, Bool.false_eq_true, ih,
            List.append_assoc, List.cons_append, List.nil_append]

theorem mergeAux_correct (d : Dir) : ∀ (fuel : ℕ) (l pre suf : List ℕ),
    l.length ≤ fuel →
    dirSorted d (mergeAux d fuel pre l suf).1 ∧
    List.Perm (mergeAux d fuel pre l suf).1 l := by
  intro fuel
  induction fuel with
  | zero =>
    intro l pre suf hlen
    have : l = [] := List.eq_nil_of_length_eq_zero (by omega)
    subst this
    exact ⟨List.Pairwise.nil, List.Perm.refl _⟩
  | succ f ih =>
    intro l pre suf hlen
    cases l with
    | nil => exact ⟨List.Pairwise.nil, List.Perm.refl _⟩
    | cons a l1 =>
      cases l1 with
      | nil => exact ⟨dirSorted_single d a, List.Perm.refl _⟩
      | cons b t =>
        have hn : (a :: b :: t).length = t.length + 2 := by simp
        have hk1 : ((a :: b :: t).take ((a :: b :: t).length / 2)).length ≤ f := by
          simp only [List.length_take]
          omega
        have hk2 : ((a :: b :: t).drop ((a :: b :: t).length / 2)).length ≤ f := by
          simp only [List.length_drop]
          simp at hlen
          omega
        rcases ih ((a :: b :: t).take ((a :: b :: t).length / 2)) pre
          (((a :: b :: t).drop ((a :: b :: t).length / 2)) ++ suf) hk1 with ⟨hs1, hp1⟩
        rcases ih ((a :: b :: t).drop ((a :: b :: t).length / 2))
          (pre ++ (mergeAux d f pre ((a :: b :: t).take ((a :: b :: t).length / 2))
            (((a :: b :: t).drop ((a :: b :: t).length / 2)) ++ suf)).1) suf hk2 with
          ⟨hs2, hp2⟩
        have hunfold : (mergeAux d (f + 1) pre (a :: b :: t) suf).1 =
            (mrgS d pre suf
              ((mergeAux d f pre ((a :: b :: t).take ((a :: b :: t).length / 2))
                (((a :: b :: t).drop ((a :: b :: t).length / 2)) ++ suf)).1.length +
               (mergeAux d f
                (pre ++ (mergeAux d f pre ((a :: b :: t).take ((a :: b :: t).length / 2))
                  (((a :: b :: t).drop ((a :: b :: t).length / 2)) ++ suf)).1)
                ((a :: b :: t).drop ((a :: b :: t).length / 2)) suf).1.length)
              []
              (mergeAux d f pre ((a :: b :: t).take ((a :: b :: t).length / 2))
                (((a :: b :: t).drop ((a :: b :: t).length / 2)) ++ suf)).1
              (mergeAux d f
                (pre ++ (mergeAux d f pre ((a :: b :: t).take ((a :: b :: t).length / 2))
                  (((a :: b :: t).drop ((a :: b :: t).length / 2)) ++ suf)).1)
                ((a :: b :: t).drop ((a :: b :: t).length / 2)) suf).1).1 := rfl
        rw [hunfold, mrgS_fst, List.nil_append]
        revert hs1 hp1 hs2 hp2
        generalize (mergeAux d f pre ((a :: b :: t).take ((a :: b :: t).length / 2))
          (((a :: b :: t).drop ((a :: b :: t).length / 2)) ++ suf)).1 = A
        generalize (mergeAux d f (pre ++ A)
          ((a :: b :: t).drop ((a :: b :: t).length / 2)) suf).1 = B
        intro hs1 hp1 hs2 hp2
        constructor
        · exact mrg_sorted d (A.length + B.length) A B (Nat.le_refl _) hs1 hs2
        · have hp3 := (mrg_perm d (A.length + B.length) A B).trans (hp1.append hp2)
          rw [List.take_append_drop] at hp3
          exact hp3

theorem mergeRun_correct (d : Dir) (l : List ℕ) :
    dirSorted d (mergeRun d l).1 ∧ List.Perm (mergeRun d l).1 l :=
  mergeAux_correct d l.length l [] [] (Nat.le_refl _)

/-! ## Quick sort lemmas -/

theorem rot1_perm (l : List ℕ) : List.Perm (rot1 l) l := by
  cases l with
  | nil => exact List.Perm.refl _
  | cons b0 bt => exact List.perm_append_comm

theorem getLastD_cons_eq_getLast (x : ℕ) (t : List ℕ) :
    (x :: t).getLastD 0 = (x :: t).getLast (by simp) := by
  rw [List.getLastD_cons, List.getLast_eq_getLastD]

theorem sorted_append_pivot {d : Dir} {p : ℕ} {A B : List ℕ}
    (hA : dirSorted d A) (hB : dirSorted d B)
    (hAp : ∀ z ∈ A, dle d z p = true) (hBp : ∀ z ∈ B, dle d p z = true) :
    dirSorted d (A ++ p :: B) := by
  refine List.pairwise_append.mpr ⟨hA, ?_, ?_⟩
  · refine List.pairwise_cons.mpr ⟨hBp, hB⟩
  · intro u hu v hv
    rcases List.mem_cons.mp hv with rfl | hv2
    · exact hAp u hu
    · exact dle_trans (hAp u hu) (hBp v hv2)

theorem partLomuto_spec (d : Dir) (p : ℕ) (pre suf : List ℕ) :
    ∀ (input sm bg : List ℕ),
      (∀ z ∈ sm, dle d z p = true) →
      (∀ z ∈ bg, shouldSwap d z p = true) →
      (∀ z ∈ (partLomuto d p pre suf sm bg input).1, dle d z p = true) ∧
      (∀ z ∈ (partLomuto d p pre suf sm bg input).2.1, shouldSwap d z p = true) ∧
      List.Perm
        ((partLomuto d p pre suf sm bg input).1 ++
          (partLomuto d p pre suf sm bg input).2.1)
        (sm ++ bg ++ input) := by
  intro input
  induction input with
  | nil =>
    intro sm bg h1 h2
    refine ⟨h1, h2, ?_⟩
    simp [partLomuto]
  | cons a rest ih =>
    intro sm bg h1 h2
    by_cases h : shouldSwap d a p = true
    · have hbg2 : ∀ z ∈ bg ++ [a], shouldSwap d z p = true := by
        intro z hz
        rcases List.mem_append.mp hz with hz | hz
        · exact h2 z hz
        · rw [List.mem_singleton.mp hz]; exact h
      rcases ih sm (bg ++ [a]) h1 hbg2 with ⟨g1, g2, g3⟩
      refine ⟨?_, ?_, ?_⟩ <;> simp only [partLomuto, h, if_true]
      · exact g1
      · exact g2
      · refine g3.trans ?_
        have heq : sm ++ (bg ++ [a]) ++ rest = sm ++ bg ++ a :: rest := by
          simp [List.append_assoc]
        rw [heq]
    · have hsm2 : ∀ z ∈ sm ++ [a], dle d z p = true := by
        intro z hz
        rcases List.mem_append.mp hz with hz | hz
        · exact h1 z hz
        · rw [List.mem_singleton.mp hz]
          exact dle_of_shouldSwap_eq_false (Bool.not_eq_true _ ▸ h)
      cases bg with
      | nil =>
        rcases ih (sm ++ [a]) [] hsm2 (by simp) with ⟨g1, g2, g3⟩
        refine ⟨?_, ?_, ?_⟩ <;>
          simp only [partLomuto, h, if_false, Bool.false_eq_true]
        · exact g1
        · exact g2
        · refine g3.trans ?_
          have heq : (sm ++ [a]) ++ [] ++ rest = sm ++ [] ++ a :: rest := by
            simp [List.append_assoc]
          rw [heq]
      | cons b0 bt =>
        have hbg2 : ∀ z ∈ bt ++ [b0], shouldSwap d z p = true := by
          intro z hz
          rcases List.mem_append.mp hz with hz | hz
          · exact h2 z (List.mem_cons_of_mem _ hz)
          · rw [List.mem_singleton.mp hz]
            exact h2 b0 (List.mem_cons_self _ _)
        rcases ih (sm ++ [a]) (bt ++ [b0]) hsm2 hbg2 with ⟨g1, g2, g3⟩
        refine ⟨?_, ?_, ?_⟩ <;>
          simp only [partLomuto, h, if_false, Bool.false_eq_true]
        · exact g1
        · exact g2
        · refine g3.trans ?_
          have hin : List.Perm (a :: (bt ++ b0 :: rest)) (b0 :: (bt ++ a :: rest)) :=
            ((List.perm_middle).cons a).trans
              ((List.Perm.swap b0 a (bt ++ rest)).trans
                ((List.perm_middle.symm).cons b0))
          have hE := hin.append_left sm
          have heq1 : (sm ++ [a]) ++ (bt ++ [b0]) ++ rest =
              sm ++ (a :: (bt ++ b0 :: rest)) := by
            simp [List.append_assoc]
          have heq2 : sm ++ (b0 :: bt) ++ (a :: rest) =
              sm ++ (b0 :: (bt ++ a :: rest)) := by
            simp [List.append_assoc]
          rw [heq1, heq2]
          exact hE

theorem quickAux_correct (d : Dir) : ∀ (fuel : ℕ) (l pre suf : List ℕ),
    l.length ≤ fuel →
    dirSorted d (quickAux d fuel pre l suf).1 ∧
    List.Perm (quickAux d fuel pre l suf).1 l := by
  intro fuel
  induction fuel with
  | zero =>
    intro l pre suf hlen
    have : l = [] := List.eq_nil_of_length_eq_zero (by omega)
    subst this
    exact ⟨List.Pairwise.nil, List.Perm.refl _⟩
  | succ f ih =>
    intro l pre suf hlen
    cases l with
    | nil => exact ⟨List.Pairwise.nil, List.Perm.refl _⟩
    | cons a l1 =>
      cases l1 with
      | nil => exact ⟨dirSorted_single d a, List.Perm.refl _⟩
      | cons b t =>
        have hseg : ((a :: b :: t).dropLast) ++ [(a :: b :: t).getLastD 0] =
            a :: b :: t := by
          rw [getLastD_cons_eq_getLast]
          exact List.dropLast_append_getLast (by simp)
        have hsegl : ((a :: b :: t).dropLast).length = t.length + 1 := by
          simp
        rcases partLomuto_spec d ((a :: b :: t).getLastD 0) pre suf
          ((a :: b :: t).dropLast) [] [] (by simp) (by simp) with ⟨hsm, hbg, hperm⟩
        rw [List.nil_append, List.nil_append] at hperm
        have hlens := hperm.length_eq
        rw [List.length_append, hsegl] at hlens
        have hlsm : (partLomuto d ((a :: b :: t).getLastD 0) pre suf [] []
            ((a :: b :: t).dropLast)).1.length ≤ f := by
          have hx : (a :: b :: t).length ≤ f + 1 := hlen
          simp at hx
          omega
        have hlbg : (rot1 (partLomuto d ((a :: b :: t).getLastD 0) pre suf [] []
            ((a :: b :: t).dropLast)).2.1).length ≤ f := by
          have hx : (a :: b :: t).length ≤ f + 1 := hlen
          simp at hx
          rw [(rot1_perm _).length_eq]
          omega
        have hunfold : (quickAux d (f + 1) pre (a :: b :: t) suf).1 =
            (quickAux d f pre
              (partLomuto d ((a :: b :: t).getLastD 0) pre suf [] []
                ((a :: b :: t).dropLast)).1
              ((a :: b :: t).getLastD 0 ::
                rot1 (partLomuto d ((a :: b :: t).getLastD 0) pre suf [] []
                  ((a :: b :: t).dropLast)).2.1 ++ suf)).1 ++
            (a :: b :: t).getLastD 0 ::
            (quickAux d f
              (pre ++ (quickAux d f pre
                (partLomuto d ((a :: b :: t).getLastD 0) pre suf [] []
                  ((a :: b :: t).dropLast)).1
                ((a :: b :: t).getLastD 0 ::
                  rot1 (partLomuto d ((a :: b :: t).getLastD 0) pre suf [] []
                    ((a :: b :: t).dropLast)).2.1 ++ suf)).1 ++
                [(a :: b :: t).getLastD 0])
              (rot1 (partLomuto d ((a :: b :: t).getLastD 0) pre suf [] []
                ((a :: b :: t).dropLast)).2.1) suf).1 := rfl
        rcases ih (partLomuto d ((a :: b :: t).getLastD 0) pre suf [] []
            ((a :: b :: t).dropLast)).1 pre
            ((a :: b :: t).getLastD 0 ::
              rot1 (partLomuto d ((a :: b :: t).getLastD 0) pre suf [] []
                ((a :: b :: t).dropLast)).2.1 ++ suf) hlsm with ⟨hs1, hp1⟩
        rcases ih (rot1 (partLomuto d ((a :: b :: t).getLastD 0) pre suf [] []
            ((a :: b :: t).dropLast)).2.1)
            (pre ++ (quickAux d f pre
              (partLomuto d ((a :: b :: t).getLastD 0) pre suf [] []
                ((a :: b :: t).dropLast)).1
              ((a :: b :: t).getLastD 0 ::
                rot1 (partLomuto d ((a :: b :: t).getLastD 0) pre suf [] []
                  ((a :: b :: t).dropLast)).2.1 ++ suf)).1 ++
              [(a :: b :: t).getLastD 0]) suf hlbg with ⟨hs2, hp2⟩
        rw [hunfold]
        constructor
        · refine sorted_append_pivot hs1 hs2 ?_ ?_
          · intro z hz
            exact hsm z (hp1.mem_iff.mp hz)
          · intro z hz
            have hz2 := (hp2.trans (rot1_perm _)).mem_iff.mp hz
            exact dle_of_shouldSwap (hbg z hz2)
        · have hbig : List.Perm
              ((quickAux d f pre
                (partLomuto d ((a :: b :: t).getLastD 0) pre suf [] []
                  ((a :: b :: t).dropLast)).1
                ((a :: b :: t).getLastD 0 ::
                  rot1 (partLomuto d ((a :: b :: t).getLastD 0) pre suf [] []
                    ((a :: b :: t).dropLast)).2.1 ++ suf)).1 ++
                (a :: b :: t).getLastD 0 ::
                (quickAux d f
                  (pre ++ (quickAux d f pre
                    (partLomuto d ((a :: b :: t).getLastD 0) pre suf [] []
                      ((a :: b :: t).dropLast)).1
                    ((a :: b :: t).getLastD 0 ::
                      rot1 (partLomuto d ((a :: b :: t).getLastD 0) pre suf [] []
                        ((a :: b :: t).dropLast)).2.1 ++ suf)).1 ++
                    [(a :: b :: t).getLastD 0])
                  (rot1 (partLomuto d ((a :: b :: t).getLastD 0) pre suf [] []
                    ((a :: b :: t).dropLast)).2.1) suf).1)
              ((partLomuto d ((a :: b :: t).getLastD 0) pre suf [] []
                  ((a :: b :: t).dropLast)).1 ++
                (a :: b :: t).getLastD 0 ::
                (partLomuto d ((a :: b :: t).getLastD 0) pre suf [] []
                  ((a :: b :: t).dropLast)).2.1) :=
            hp1.append ((hp2.trans (rot1_perm _)).cons ((a :: b :: t).getLastD 0))
          refine hbig.trans ?_
          refine (List.perm_middle).trans ?_
          refine (( hperm.cons ((a :: b :: t).getLastD 0))).trans ?_
          have hfin : List.Perm ((a :: b :: t).getLastD 0 :: (a :: b :: t).dropLast)
              ((a :: b :: t).dropLast ++ [(a :: b :: t).getLastD 0]) :=
            @List.perm_append_comm ℕ [(a :: b :: t).getLastD 0]
              ((a :: b :: t).dropLast)
          refine hfin.trans ?_
          rw [hseg]

theorem quickRun_correct (d : Dir) (l : List ℕ) :
    dirSorted d (quickRun d l).1 ∧ List.Perm (quickRun d l).1 l :=
  quickAux_correct d l.length l [] [] (Nat.le_refl _)

/-! ## Heap sort lemmas -/

theorem descN_self (i : ℕ) : descN i i = true := by
  unfold descN
  simp

theorem descN_lt {i j : ℕ} (h : j < i) : descN i j = false := by
  unfold descN
  simp [h]

theorem descN_ge {i j : ℕ} (h : descN i j = true) : i ≤ j := by
  by_contra hc
  rw [descN_lt (by omega)] at h
  exact Bool.noConfusion h

theorem descN_step {i j : ℕ} (h : i < j) : descN i j = descN i ((j - 1) / 2) := by
  conv_lhs => unfold descN
  have h1 : ¬ j < i := by omega
  have h2 : ¬ j = i := by omega
  simp [h1, h2]

theorem descN_child {i c : ℕ} (h : (c - 1) / 2 = i) (hc : i < c) :
    descN i c = true := by
  rw [descN_step hc, h]
  exact descN_self i

theorem descN_trans {i j : ℕ} : ∀ k, descN i j = true → descN j k = true →
    descN i k = true := by
  intro k
  induction k using Nat.strong_induction_on with
  | _ k ih =>
    intro hij hjk
    by_cases hkj : k = j
    · subst hkj; exact hij
    · have hj_le := descN_ge hjk
      have hjk2 : j < k := by omega
      have hik : i < k := by
        have := descN_ge hij
        omega
      rw [descN_step hjk2] at hjk
      rw [descN_step hik]
      exact ih ((k - 1) / 2) (by omega) hij hjk

theorem heapChild_cases (d : Dir) (l : List ℕ) (n i : ℕ) :
    heapChild d l n i = 2 * i + 1 ∨ heapChild d l n i = 2 * i + 2 := by
  unfold heapChild
  by_cases h : (decide (2 * i + 2 < n) &&
      shouldSwap d (gd l (2 * i + 2)) (gd l (2 * i + 1))) = true
  · rw [if_pos h]; exact Or.inr rfl
  · rw [if_neg h]; exact Or.inl rfl

theorem heapChild_gt (d : Dir) (l : List ℕ) (n i : ℕ) : i < heapChild d l n i := by
  rcases heapChild_cases d l n i with h | h <;> omega

theorem heapChild_parent (d : Dir) (l : List ℕ) (n i : ℕ) :
    (heapChild d l n i - 1) / 2 = i := by
  rcases heapChild_cases d l n i with h | h <;> rw [h] <;> omega

theorem heapChild_lt_n {d : Dir} {l : List ℕ} {n i : ℕ} (h : 2 * i + 1 < n) :
    heapChild d l n i < n := by
  unfold heapChild
  by_cases hc : (decide (2 * i + 2 < n) &&
      shouldSwap d (gd l (2 * i + 2)) (gd l (2 * i + 1))) = true
  · rw [if_pos hc]
    rcases Bool.and_eq_true_iff.mp hc with ⟨h1, _⟩
    exact of_decide_eq_true h1
  · rw [if_neg hc]; exact h

theorem heapChild_dom_left (d : Dir) (l : List ℕ) (n i : ℕ) :
    dle d (gd l (2 * i + 1)) (gd l (heapChild d l n i)) = true := by
  unfold heapChild
  by_cases hc : (decide (2 * i + 2 < n) &&
      shouldSwap d (gd l (2 * i + 2)) (gd l (2 * i + 1))) = true
  · rw [if_pos hc]
    rcases Bool.and_eq_true_iff.mp hc with ⟨_, h2⟩
    exact dle_of_shouldSwap h2
  · rw [if_neg hc]; exact dle_refl d _

theorem heapChild_dom_right {d : Dir} {l : List ℕ} {n i : ℕ} (hri : 2 * i + 2 < n) :
    dle d (gd l (2 * i + 2)) (gd l (heapChild d l n i)) = true := by
  unfold heapChild
  by_cases hc : (decide (2 * i + 2 < n) &&
      shouldSwap d (gd l (2 * i + 2)) (gd l (2 * i + 1))) = true
  · rw [if_pos hc]; exact dle_refl d _
  · rw [if_neg hc]
    rw [Bool.and_eq_true_iff] at hc
    push_neg at hc
    have := hc (by simpa using hri)
    exact dle_of_shouldSwap_eq_false (Bool.not_eq_true _ ▸ this)

theorem siftDownS_length (d : Dir) (n : ℕ) : ∀ (fuel : ℕ) (l : List ℕ) (i : ℕ),
    (siftDownS d n fuel l i).1.length = l.length := by
  intro fuel
  induction fuel with
  | zero => intro l i; rfl
  | succ f ih =>
    intro l i
    by_cases h1 : 2 * i + 1 < n
    · by_cases hsw : shouldSwap d (gd l (heapChild d l n i)) (gd l i) = true
      · simp only [siftDownS, h1, if_true, hsw, ih, length_lswap]
      · simp only [siftDownS, h1, if_true, hsw, Bool.false_eq_true, if_false]
    · simp only [siftDownS, h1, if_false]

theorem siftDownS_perm (d : Dir) (n : ℕ) : ∀ (fuel : ℕ) (l : List ℕ) (i : ℕ),
    n ≤ l.length →
    List.Perm (siftDownS d n fuel l i).1 l := by
  intro fuel
  induction fuel with
  | zero => intro l i _; exact List.Perm.refl _
  | succ f ih =>
    intro l i hn
    by_cases h1 : 2 * i + 1 < n
    · by_cases hsw : shouldSwap d (gd l (heapChild d l n i)) (gd l i) = true
      · simp only [siftDownS, h1, if_true, hsw]
        refine (ih (lswap l i (heapChild d l n i)) (heapChild d l n i)
          (by rw [length_lswap]; exact hn)).trans ?_
        exact lswap_perm l i (heapChild d l n i) (by omega)
          (by have := @heapChild_lt_n d l n i h1; omega)
      · simp only [siftDownS, h1, if_true, hsw, Bool.false_eq_true, if_false]
        exact List.Perm.refl _
    · simp only [siftDownS, h1, if_false]
      exact List.Perm.refl _

theorem siftDownS_frame (d : Dir) (n : ℕ) : ∀ (fuel : ℕ) (l : List ℕ) (i k : ℕ),
    (descN i k = false ∨ n ≤ k) →
    gd (siftDownS d n fuel l i).1 k = gd l k := by
  intro fuel
  induction fuel with
  | zero => intro l i k _; rfl
  | succ f ih =>
    intro l i k hk
    by_cases h1 : 2 * i + 1 < n
    · by_cases hsw : shouldSwap d (gd l (heapChild d l n i)) (gd l i) = true
      · simp only [siftDownS, h1, if_true, hsw]
        have hc_lt : heapChild d l n i < n := heapChild_lt_n h1
        have hc_gt : i < heapChild d l n i := heapChild_gt d l n i
        have hkc : descN (heapChild d l n i) k = false ∨ n ≤ k := by
          rcases hk with hk | hk
          · left
            by_contra hcon
            rw [Bool.not_eq_false] at hcon
            have := descN_trans k
              (descN_child (heapChild_parent d l n i) hc_gt) hcon
            rw [this] at hk
            exact Bool.noConfusion hk
          · right; exact hk
        rw [ih (lswap l i (heapChild d l n i)) (heapChild d l n i) k hkc]
        have hki : k ≠ i := by
          rcases hk with hk | hk
          · intro hcon; subst hcon; rw [descN_self] at hk; exact Bool.noConfusion hk
          · omega
        have hkc2 : k ≠ heapChild d l n i := by
          rcases hk with hk | hk
          · intro hcon; subst hcon
            rw [descN_child (heapChild_parent d l n i) hc_gt] at hk
            exact Bool.noConfusion hk
          · omega
        exact gd_lswap_other l hki hkc2
      · simp only [siftDownS, h1, if_true, hsw, Bool.false_eq_true, if_false]
    · simp only [siftDownS, h1, if_false]

theorem siftDownS_bound (d : Dir) (n : ℕ) : ∀ (fuel : ℕ) (l : List ℕ) (i b : ℕ),
    n ≤ l.length →
    (∀ k, descN i k = true → k < n → dle d (gd l k) b = true) →
    ∀ k, descN i k = true → k < n → dle d (gd (siftDownS d n fuel l i).1 k) b = true := by
  intro fuel
  induction fuel with
  | zero => intro l i b _ hb k h1 h2; exact hb k h1 h2
  | succ f ih =>
    intro l i b hn hb k hdk hkn
    by_cases h1 : 2 * i + 1 < n
    · by_cases hsw : shouldSwap d (gd l (heapChild d l n i)) (gd l i) = true
      · simp only [siftDownS, h1, if_true, hsw]
        have hc_lt : heapChild d l n i < n := heapChild_lt_n h1
        have hc_gt : i < heapChild d l n i := heapChild_gt d l n i
        have hc_desc : descN i (heapChild d l n i) = true :=
          descN_child (heapChild_parent d l n i) hc_gt
        have hb2 : ∀ k2, descN (heapChild d l n i) k2 = true → k2 < n →
            dle d (gd (lswap l i (heapChild d l n i)) k2) b = true := by
          intro k2 hk2 hk2n
          have hk2i : k2 ≠ i := by
            intro hcon; subst hcon
            have := descN_ge hk2
            omega
          by_cases hk2c : k2 = heapChild d l n i
          · rw [hk2c, gd_lswap_snd l i (heapChild d l n i) (by omega)]
            exact hb i (descN_self i) (by omega)
          · rw [gd_lswap_other l hk2i hk2c]
            exact hb k2 (descN_trans k2 hc_desc hk2) hk2n
        by_cases hkdesc : descN (heapChild d l n i) k = true
        · exact ih (lswap l i (heapChild d l n i)) (heapChild d l n i) b
            (by rw [length_lswap]; exact hn) hb2 k hkdesc hkn
        · rw [siftDownS_frame d n f _ _ k (Or.inl (Bool.not_eq_true _ ▸ hkdesc))]
          have hki2 : k = i ∨ (k ≠ i ∧ k ≠ heapChild d l n i) := by
            by_cases hki : k = i
            · exact Or.inl hki
            · refine Or.inr ⟨hki, ?_⟩
              intro hcon; subst hcon
              rw [descN_self] at hkdesc
              exact hkdesc rfl
          rcases hki2 with rfl | ⟨hki, hkc⟩
          · rw [gd_lswap_fst l k _ (by omega)]
            exact hb _ hc_desc hc_lt
          · rw [gd_lswap_other l hki hkc]
            exact hb k hdk hkn
      · simp only [siftDownS, h1, if_true, hsw, Bool.false_eq_true, if_false]
        exact hb k hdk hkn
    · simp only [siftDownS, h1, if_false]
      exact hb k hdk hkn

theorem heapFrom_chain {d : Dir} {l : List ℕ} {n m : ℕ} (h : HeapFrom d l n m) :
    ∀ k j, m ≤ j → descN j k = true → k < n → dle d (gd l k) (gd l j) = true := by
  intro k
  induction k using Nat.strong_induction_on with
  | _ k ih =>
    intro j hmj hdesc hkn
    by_cases hkj : k = j
    · subst hkj; exact dle_refl d _
    · have hj_le := descN_ge hdesc
      have hjk : j < k := by omega
      rw [descN_step hjk] at hdesc
      have hpar_ge : j ≤ (k - 1) / 2 := descN_ge hdesc
      have hpar_lt : (k - 1) / 2 < k := by omega
      have h1 : dle d (gd l k) (gd l ((k - 1) / 2)) = true :=
        h k (by omega) hkn (by omega)
      have h2 : dle d (gd l ((k - 1) / 2)) (gd l j) = true :=
        ih ((k - 1) / 2) hpar_lt j hmj hdesc (by omega)
      exact dle_trans h1 h2

theorem descN_zero : ∀ j, descN 0 j = true := by
  intro j
  induction j using Nat.strong_induction_on with
  | _ j ih =>
    by_cases h : j = 0
    · subst h; exact descN_self 0
    · rw [descN_step (by omega)]
      exact ih _ (by omega)

theorem siftDownS_heap (d : Dir) (n : ℕ) : ∀ (fuel : ℕ) (l : List ℕ) (i : ℕ),
    n ≤ l.length → n ≤ fuel + i →
    HeapFrom d l n (i + 1) →
    HeapFrom d (siftDownS d n fuel l i).1 n i := by
  intro fuel
  induction fuel with
  | zero =>
    intro l i _ hfuel _
    intro c hc0 hcn hpar
    exfalso
    have hlt : (c - 1) / 2 < c := by omega
    omega
  | succ f ih =>
    intro l i hn hfuel hheap
    by_cases h1 : 2 * i + 1 < n
    · by_cases hsw : shouldSwap d (gd l (heapChild d l n i)) (gd l i) = true
      · simp only [siftDownS, h1, if_true, hsw]
        have hc_lt : heapChild d l n i < n := heapChild_lt_n h1
        have hc_gt : i < heapChild d l n i := heapChild_gt d l n i
        have hc_par : (heapChild d l n i - 1) / 2 = i := heapChild_parent d l n i
        have hheap2 : HeapFrom d (lswap l i (heapChild d l n i)) n
            (heapChild d l n i + 1) := by
          intro c hc0 hcn hpar
          have hlt : (c - 1) / 2 < c := by omega
          have hc_ne_i : c ≠ i := by omega
          have hc_ne_hc : c ≠ heapChild d l n i := by omega
          have hp_ne_i : (c - 1) / 2 ≠ i := by omega
          have hp_ne_hc : (c - 1) / 2 ≠ heapChild d l n i := by omega
          rw [gd_lswap_other l hc_ne_i hc_ne_hc,
            gd_lswap_other l hp_ne_i hp_ne_hc]
          exact hheap c hc0 hcn (by omega)
        have hrec := ih (lswap l i (heapChild d l n i)) (heapChild d l n i)
          (by rw [length_lswap]; exact hn) (by omega) hheap2
        have hboundhyp : ∀ k, descN (heapChild d l n i) k = true → k < n →
            dle d (gd (lswap l i (heapChild d l n i)) k)
              (gd l (heapChild d l n i)) = true := by
          intro k hk hkn
          by_cases hkc : k = heapChild d l n i
          · rw [hkc, gd_lswap_snd l i _ (by omega)]
            exact dle_of_shouldSwap hsw
          · have hki : k ≠ i := by
              intro hcon; subst hcon
              have := descN_ge hk
              omega
            rw [gd_lswap_other l hki hkc]
            exact heapFrom_chain hheap k (heapChild d l n i) (by omega) hk hkn
        have hbound := siftDownS_bound d n f (lswap l i (heapChild d l n i))
          (heapChild d l n i) (gd l (heapChild d l n i))
          (by rw [length_lswap]; exact hn) hboundhyp
        intro c0 hc00 hc0n hpar0
        by_cases hpc : heapChild d l n i ≤ (c0 - 1) / 2
        · exact hrec c0 hc00 hc0n hpc
        · have hpar0_lt : (c0 - 1) / 2 < heapChild d l n i := by omega
          have hfp : gd (siftDownS d n f (lswap l i (heapChild d l n i))
              (heapChild d l n i)).1 ((c0 - 1) / 2) =
              gd (lswap l i (heapChild d l n i)) ((c0 - 1) / 2) :=
            siftDownS_frame d n f _ _ _ (Or.inl (descN_lt hpar0_lt))
          by_cases hc0c : c0 = heapChild d l n i
          · have hpi : (c0 - 1) / 2 = i := by rw [hc0c]; exact hc_par
            rw [hfp, hpi, gd_lswap_fst l i _ (by omega), hc0c]
            exact hbound _ (descN_self _) hc_lt
          · have hdc0 : descN (heapChild d l n i) c0 = false := by
              by_cases hlt : c0 < heapChild d l n i
              · exact descN_lt hlt
              · have hgt : heapChild d l n i < c0 := by omega
                rw [descN_step hgt]
                exact descN_lt hpar0_lt
            have hfc : gd (siftDownS d n f (lswap l i (heapChild d l n i))
                (heapChild d l n i)).1 c0 =
                gd (lswap l i (heapChild d l n i)) c0 :=
              siftDownS_frame d n f _ _ _ (Or.inl hdc0)
            rw [hfc, hfp]
            by_cases hpi : (c0 - 1) / 2 = i
            · have hc0i : c0 ≠ i := by omega
              rw [gd_lswap_other l hc0i hc0c, hpi, gd_lswap_fst l i _ (by omega)]
              have hcc : c0 = 2 * i + 1 ∨ c0 = 2 * i + 2 := by omega
              rcases hcc with rfl | rfl
              · exact heapChild_dom_left d l n i
              · exact heapChild_dom_right (by omega)
            · have hc0i : c0 ≠ i := by omega
              have hp_ne_c : (c0 - 1) / 2 ≠ heapChild d l n i := by omega
              rw [gd_lswap_other l hc0i hc0c, gd_lswap_other l hpi hp_ne_c]
              exact hheap c0 hc00 hc0n (by omega)
      · simp only [siftDownS, h1, if_true, hsw, Bool.false_eq_true, if_false]
        intro c hc0 hcn hpar
        by_cases hp2 : i + 1 ≤ (c - 1) / 2
        · exact hheap c hc0 hcn hp2
        · have hpi : (c - 1) / 2 = i := by omega
          have hdlci : dle d (gd l (heapChild d l n i)) (gd l i) = true :=
            dle_of_shouldSwap_eq_false (Bool.not_eq_true _ ▸ hsw)
          have hcc : c = 2 * i + 1 ∨ c = 2 * i + 2 := by omega
          rw [hpi]
          rcases hcc with rfl | rfl
          · exact dle_trans (heapChild_dom_left d l n i) hdlci
          · exact dle_trans (heapChild_dom_right (by omega)) hdlci
    · simp only [siftDownS, h1, if_false]
      intro c hc0 hcn hpar
      by_cases hp2 : i + 1 ≤ (c - 1) / 2
      · exact hheap c hc0 hcn hp2
      · exfalso
        have hpi : (c - 1) / 2 = i := by omega
        have hcc : c = 2 * i + 1 ∨ c = 2 * i + 2 := by omega
        omega

theorem buildS_heap (d : Dir) (n : ℕ) : ∀ (k : ℕ) (l : List ℕ),
    n ≤ l.length → HeapFrom d l n k →
    HeapFrom d (buildS d n k l).1 n 0 ∧ List.Perm (buildS d n k l).1 l ∧
    (buildS d n k l).1.length = l.length := by
  intro k
  induction k with
  | zero =>
    intro l _ hh
    exact ⟨hh, List.Perm.refl _, rfl⟩
  | succ k ih =>
    intro l hn hh
    have hsift := siftDownS_heap d n n l k hn (by omega) hh
    have hslen := siftDownS_length d n n l k
    rcases ih (siftDownS d n n l k).1 (by rw [hslen]; exact hn) hsift with
      ⟨g1, g2, g3⟩
    refine ⟨g1, ?_, ?_⟩
    · exact g2.trans (siftDownS_perm d n n l k hn)
    · show (buildS d n k (siftDownS d n n l k).1).1.length = l.length
      rw [g3, hslen]

theorem extractS_sorted (d : Dir) : ∀ (k : ℕ) (l : List ℕ),
    k ≤ l.length →
    HeapFrom d l k 0 →
    (∀ a b2, a < k → k ≤ b2 → b2 < l.length →
      dle d (gd l a) (gd l b2) = true) →
    (∀ a b2, k ≤ a → a ≤ b2 → b2 < l.length →
      dle d (gd l a) (gd l b2) = true) →
    (∀ a b2, a ≤ b2 → b2 < (extractS d k l).1.length →
      dle d (gd (extractS d k l).1 a) (gd (extractS d k l).1 b2) = true) ∧
    List.Perm (extractS d k l).1 l := by
  intro k
  induction k using Nat.strong_induction_on with
  | _ k ih =>
    match k with
    | 0 =>
      intro l _ _ _ hsuf
      exact ⟨fun a b2 hab hb2 => hsuf a b2 (by omega) hab hb2, List.Perm.refl _⟩
    | 1 =>
      intro l hk _ hfence hsuf
      refine ⟨?_, List.Perm.refl _⟩
      intro a b2 hab hb2
      by_cases ha : a = 0
      · subst ha
        by_cases hb : b2 = 0
        · subst hb; exact dle_refl d _
        · exact hfence 0 b2 (by omega) (by omega) hb2
      · exact hsuf a b2 (by omega) hab hb2
    | k + 2 =>
      intro l hk hheap hfence hsuf
      have h0len : 0 < l.length := by omega
      have hk1len : k + 1 < l.length := by omega
      have hroot : ∀ a, a < k + 2 → dle d (gd l a) (gd l 0) = true := by
        intro a ha
        exact heapFrom_chain hheap a 0 (by omega) (descN_zero a) ha
      have hl2len : (lswap l 0 (k + 1)).length = l.length := length_lswap l 0 (k + 1)
      have hgd0 : gd (lswap l 0 (k + 1)) 0 = gd l (k + 1) :=
        gd_lswap_fst l 0 (k + 1) h0len
      have hgdk1 : gd (lswap l 0 (k + 1)) (k + 1) = gd l 0 :=
        gd_lswap_snd l 0 (k + 1) hk1len
      have hother : ∀ x, x ≠ 0 → x ≠ k + 1 → gd (lswap l 0 (k + 1)) x = gd l x :=
        fun x h1 h2 => gd_lswap_other l h1 h2
      have hFence2 : ∀ a b2, a < k + 1 → k + 1 ≤ b2 → b2 < l.length →
          dle d (gd (lswap l 0 (k + 1)) a) (gd (lswap l 0 (k + 1)) b2) = true := by
        intro a b2 ha hb2 hb2len
        by_cases hb : b2 = k + 1
        · subst hb
          rw [hgdk1]
          by_cases ha0 : a = 0
          · subst ha0
            rw [hgd0]
            exact hroot (k + 1) (by omega)
          · rw [hother a ha0 (by omega)]
            exact hroot a (by omega)
        · rw [hother b2 (by omega) hb]
          by_cases ha0 : a = 0
          · subst ha0
            rw [hgd0]
            exact hfence (k + 1) b2 (by omega) (by omega) hb2len
          · rw [hother a ha0 (by omega)]
            exact hfence a b2 (by omega) (by omega) hb2len
      have hSuf2 : ∀ a b2, k + 1 ≤ a → a ≤ b2 → b2 < l.length →
          dle d (gd (lswap l 0 (k + 1)) a) (gd (lswap l 0 (k + 1)) b2) = true := by
        intro a b2 ha hab hb2len
        by_cases ha1 : a = k + 1
        · subst ha1
          rw [hgdk1]
          by_cases hb : b2 = k + 1
          · subst hb
            rw [hgdk1]
            exact dle_refl d _
          · rw [hother b2 (by omega) hb]
            exact hfence 0 b2 (by omega) (by omega) hb2len
        · rw [hother a (by omega) ha1, hother b2 (by omega) (by omega)]
          exact hsuf a b2 (by omega) hab hb2len
      have hheap2 : HeapFrom d (lswap l 0 (k + 1)) (k + 1) 1 := by
        intro c hc0 hcn hpar
        have hlt : (c - 1) / 2 < c := by omega
        rw [hother c (by omega) (by omega), hother ((c - 1) / 2) (by omega) (by omega)]
        exact hheap c hc0 (by omega) (by omega)
      have hheap3 : HeapFrom d (siftDownS d (k + 1) (k + 1) (lswap l 0 (k + 1)) 0).1
          (k + 1) 0 :=
        siftDownS_heap d (k + 1) (k + 1) (lswap l 0 (k + 1)) 0
          (by rw [hl2len]; omega) (by omega) hheap2
      have hl3len : (siftDownS d (k + 1) (k + 1) (lswap l 0 (k + 1)) 0).1.length =
          l.length := by
        rw [siftDownS_length, hl2len]
      have hframe3 : ∀ x, k + 1 ≤ x →
          gd (siftDownS d (k + 1) (k + 1) (lswap l 0 (k + 1)) 0).1 x =
          gd (lswap l 0 (k + 1)) x :=
        fun x hx => siftDownS_frame d (k + 1) (k + 1) _ 0 x (Or.inr hx)
      have hFence3 : ∀ a b2, a < k + 1 → k + 1 ≤ b2 → b2 < l.length →
          dle d (gd (siftDownS d (k + 1) (k + 1) (lswap l 0 (k + 1)) 0).1 a)
            (gd (siftDownS d (k + 1) (k + 1) (lswap l 0 (k + 1)) 0).1 b2) = true := by
        intro a b2 ha hb2 hb2len
        rw [hframe3 b2 hb2]
        refine siftDownS_bound d (k + 1) (k + 1) (lswap l 0 (k + 1)) 0
          (gd (lswap l 0 (k + 1)) b2) (by rw [hl2len]; omega) ?_ a (descN_zero a) ha
        intro x hx hxk
        exact hFence2 x b2 hxk hb2 hb2len
      have hSuf3 : ∀ a b2, k + 1 ≤ a → a ≤ b2 → b2 < l.length →
          dle d (gd (siftDownS d (k + 1) (k + 1) (lswap l 0 (k + 1)) 0).1 a)
            (gd (siftDownS d (k + 1) (k + 1) (lswap l 0 (k + 1)) 0).1 b2) = true := by
        intro a b2 ha hab hb2len
        rw [hframe3 a ha, hframe3 b2 (by omega)]
        exact hSuf2 a b2 ha hab hb2len
      have hperm23 : List.Perm
          (siftDownS d (k + 1) (k + 1) (lswap l 0 (k + 1)) 0).1 l := by
        refine (siftDownS_perm d (k + 1) (k + 1) (lswap l 0 (k + 1)) 0
          (by rw [hl2len]; omega)).trans ?_
        exact lswap_perm l 0 (k + 1) h0len hk1len
      rcases ih (k + 1) (by omega)
          (siftDownS d (k + 1) (k + 1) (lswap l 0 (k + 1)) 0).1
          (by rw [hl3len]; omega) hheap3
          (by rw [hl3len]; exact hFence3)
          (by rw [hl3len]; exact hSuf3) with ⟨hsorted, hperm⟩
      exact ⟨hsorted, hperm.trans hperm23⟩

theorem dirSorted_of_positional {d : Dir} {l : List ℕ}
    (h : ∀ a b, a ≤ b → b < l.length → dle d (gd l a) (gd l b) = true) :
    dirSorted d l := by
  rw [dirSorted, List.pairwise_iff_getElem]
  intro i j hi hj hij
  have hd := h i j (by omega) hj
  rwa [gd, gd, List.getD_eq_getElem _ _ hi, List.getD_eq_getElem _ _ hj] at hd

theorem heapRun_correct (d : Dir) (l : List ℕ) :
    dirSorted d (heapRun d l).1 ∧ List.Perm (heapRun d l).1 l := by
  have hinit : HeapFrom d l l.length (l.length / 2) := by
    intro c hc0 hcn hpar
    exfalso
    omega
  rcases buildS_heap d l.length (l.length / 2) l (Nat.le_refl _) hinit with
    ⟨hh, hperm1, hlen1⟩
  rcases extractS_sorted d l.length (buildS d l.length (l.length / 2) l).1
      (by omega) hh
      (by intro a b2 _ hb2 hb2len; rw [hlen1] at hb2len; omega)
      (by intro a b2 ha _ hb2len; rw [hlen1] at hb2len; omega) with
    ⟨hsort, hperm2⟩
  constructor
  · exact dirSorted_of_positional (fun a b hab hb => hsort a b hab hb)
  · exact hperm2.trans hperm1

/-! ## The generated step sequences -/

theorem numberFrom_append (xs : List Step) : ∀ (k : ℕ) (ys : List Step),
    numberFrom k (xs ++ ys) = numberFrom k xs ++ numberFrom (k + xs.length) ys := by
  induction xs with
  | nil => intro k ys; simp [numberFrom]
  | cons x t ih =>
    intro k ys
    rw [List.cons_append]
    simp only [numberFrom]
    rw [ih (k + 1) ys]
    have h2 : k + 1 + t.length = k + (x :: t).length := by
      simp only [List.length_cons]
      omega
    rw [h2]
    rfl

theorem applySteps_append_last (a : List ℕ) (ss : List Step) (s : Step) :
    applySteps a (ss ++ [s]) = s.arraySnapshot := by
  unfold applySteps
  rw [List.foldl_append]
  rfl

theorem algoRun_correct (a : Alg) (d : Dir) (l : List ℕ) :
    dirSorted d (algoRun a d l).1 ∧ List.Perm (algoRun a d l).1 l := by
  cases a with
  | bubble => exact bubbleRun_correct d l
  | insertion => exact insertRun_correct d l
  | selection => exact selectRun_correct d l
  | quick => exact quickRun_correct d l
  | merge => exact mergeRun_correct d l
  | heap => exact heapRun_correct d l

theorem generate_eq (a : Alg) (d : Dir) (l : List ℕ) :
    generate a d l = numberFrom 0 (algoRun a d l).2 ++
      [⟨StepKind.done, [], (algoRun a d l).1, 0 + ((algoRun a d l).2).length⟩] := by
  unfold generate
  rw [numberFrom_append]
  rfl

/-- C1: for every valid NumberList, every one of the six algorithms and both
directions, applying every generated step in order from the initial array
reaches, at the final step (whose kind is `done`), an array sorted per the
requested direction that is a permutation of the input. -/
theorem claim_c1_generated_steps_sort (a : Alg) (d : Dir) (l : List ℕ)
    (_hlen1 : 1 ≤ l.length) (_hlen2 : l.length ≤ 25)
    (_hbound : ∀ x ∈ l, 1 ≤ x ∧ x ≤ 1000) :
    ∃ hne : generate a d l ≠ [],
      ((generate a d l).getLast hne).kind = StepKind.done ∧
      applySteps l (generate a d l) = ((generate a d l).getLast hne).arraySnapshot ∧
      dirSorted d (applySteps l (generate a d l)) ∧
      List.Perm (applySteps l (generate a d l)) l := by
  rcases algoRun_correct a d l with ⟨hsorted, hperm⟩
  have hgen := generate_eq a d l
  have hne : generate a d l ≠ [] := by
    rw [hgen]
    intro hc
    have hlc := congrArg List.length hc
    simp at hlc
  have hne2 : numberFrom 0 (algoRun a d l).2 ++
      [(⟨StepKind.done, [], (algoRun a d l).1,
        0 + ((algoRun a d l).2).length⟩ : Step)] ≠ [] := by
    intro hc
    have hlc := congrArg List.length hc
    simp at hlc
  have hlast : (generate a d l).getLast hne =
      ⟨StepKind.done, [], (algoRun a d l).1, 0 + ((algoRun a d l).2).length⟩ := by
    rw [List.getLast_congr _ hne2 hgen,
      List.getLast_append_of_ne_nil (List.cons_ne_nil _ _)]
    rfl
  refine ⟨hne, ?_, ?_, ?_, ?_⟩
  · rw [hlast]
  · rw [hlast, hgen, applySteps_append_last]
  · rw [hgen, applySteps_append_last]
    exact hsorted
  · rw [hgen, applySteps_append_last]
    exact hperm

theorem claim_c1_witness :
    ∃ hne : generate Alg.bubble Dir.asc [5, 3, 4, 1, 2] ≠ [],
      ((generate Alg.bubble Dir.asc [5, 3, 4, 1, 2]).getLast hne).kind =
        StepKind.done ∧
      applySteps [5, 3, 4, 1, 2] (generate Alg.bubble Dir.asc [5, 3, 4, 1, 2]) =
        ((generate Alg.bubble Dir.asc [5, 3, 4, 1, 2]).getLast hne).arraySnapshot ∧
      dirSorted Dir.asc
        (applySteps [5, 3, 4, 1, 2] (generate Alg.bubble Dir.asc [5, 3, 4, 1, 2])) ∧
      List.Perm
        (applySteps [5, 3, 4, 1, 2] (generate Alg.bubble Dir.asc [5, 3, 4, 1, 2]))
        [5, 3, 4, 1, 2] :=
  claim_c1_generated_steps_sort Alg.bubble Dir.asc [5, 3, 4, 1, 2]
    (by decide) (by decide) (by decide)

example : validateNumberInput "5, 10  15" =
    ⟨true, some [5, 10, 15], none, some "Valid numbers: 5, 10, 15"⟩ := by decide
example : validateNumberInput "" =
    ⟨true, none, none, some "Empty input - will use random numbers"⟩ := by decide
example : validateNumberInput "abc 5" =
    ⟨false, none, some "\"abc\" is not a number", none⟩ := by decide
example : validateNumberInput "0 1001" =
    ⟨false, none,
      some "0 is out of range (1-1000), 1001 is out of range (1-1000)", none⟩ := by
  decide
example : validateNumberInput "12abc" =
    ⟨true, some [12], none, some "Valid numbers: 12"⟩ := by decide
example : parseIntJS ('0' :: 'x' :: ['1', 'f']) = some 31 := by decide
example : parseIntJS ['-', '7'] = some (-7) := by decide
example : (bubbleRun .asc [5, 3, 4, 1, 2]).1 = [1, 2, 3, 4, 5] := by decide
example : (insertRun .asc [5, 3, 4, 1, 2]).1 = [1, 2, 3, 4, 5] := by decide
example : (selectRun .asc [5, 3, 4, 1, 2]).1 = [1, 2, 3, 4, 5] := by decide
example : (quickRun .asc [5, 3, 4, 1, 2]).1 = [1, 2, 3, 4, 5] := by decide
example : (mergeRun .asc [5, 3, 4, 1, 2]).1 = [1, 2, 3, 4, 5] := by decide
example : (heapRun .desc [5, 3, 4, 1, 2]).1 = [5, 4, 3, 2, 1] := by decide
example : (heapRun .asc [3, 1, 4, 1, 5, 9, 2, 6]).1 = [1, 1, 2, 3, 4, 5, 6, 9] := by
  decide
example : (quickRun .desc [3, 1, 4, 1, 5, 9, 2, 6]).1 = [9, 6, 5, 4, 3, 2, 1, 1] := by
  decide

end Visualzzer
